import Mathlib

/-!
Shallow embedding of the license attribution engine of
`license-bill-of-materials.go`, together with proofs about the claims of
its specification.  Text is modelled as `List Char`, machine floats as `ℚ`
(the one place where IEEE `0/0 = NaN` matters is modelled explicitly),
Go maps as association lists in insertion order, and fallible code as
`Except`/`Option`.
-/

namespace LBOM

/- ## Text normalization (cleanLicenseData / makeWordSet) -/

/-- Whitespace class of the Go regexp engine: tab, newline, form feed,
carriage return and space. -/
def isSpc (c : Char) : Bool :=
  c == ' ' || c == '\t' || c == '\n' || c == '\x0c' || c == '\r'

/-- Word-constituent characters of the regexp class (digits, ASCII
letters and underscore). -/
def isWordChar (c : Char) : Bool :=
  (decide ('0' ≤ c) && decide (c ≤ '9')) ||
  (decide ('a' ≤ c) && decide (c ≤ 'z')) ||
  (decide ('A' ≤ c) && decide (c ≤ 'Z')) || c == '_'

/-- The apostrophe character, admitted inside word tokens by `reWords`. -/
def apos : Char := Char.ofNat 39

/-- Characters a `reWords` token is made of. -/
def isTokChar (c : Char) : Bool := isWordChar c || c == apos

/-- Decimal digit test for the regexp class of digits. -/
def isDigit (c : Char) : Bool := decide ('0' ≤ c) && decide (c ≤ '9')

/-- Byte-wise lower casing used by `cleanLicenseData`. -/
def lowerStr (cs : List Char) : List Char := cs.map Char.toLower

/-- Matches a literal prefix, returning the remainder. -/
def stripPfx : List Char → List Char → Option (List Char)
  | [], cs => some cs
  | _ :: _, [] => none
  | p :: ps, c :: cs => if c = p then stripPfx ps cs else none

/-- The year marker of `reCopyright`: four decimal digits or the literal
string `[year]`. -/
def matchYear (cs : List Char) : Option (List Char) :=
  match cs with
  | a :: b :: c :: d :: rest =>
    if isDigit a && isDigit b && isDigit c && isDigit d then some rest
    else stripPfx "[year]".data cs
  | _ => stripPfx "[year]".data cs

/-- Year marker followed by the greedy rest-of-line of `reCopyright`
(the dot of the pattern does not cross a newline). -/
def afterYear (cs : List Char) : Option (List Char) :=
  (matchYear cs).map (fun r => r.dropWhile (fun c => !(c == '\n')))

/-- The optional copyright sign of `reCopyright`: the sign itself, or the
ASCII `(c)` marker; the third alternative in the source is the UTF-8 byte
spelling of the same sign and collapses with the first one here. -/
def copyrightSym (cs : List Char) : Option (List Char) :=
  (stripPfx "©".data cs) <|> (stripPfx "(c)".data cs)

/-- One attempted match of `reCopyright` at the head of the input,
returning the remainder after the match.  The regexp engine backtracks
over the optional sign, which is the `<|>` fallback below. -/
def tryMatch (cs : List Char) : Option (List Char) :=
  match stripPfx "copyright ".data (cs.dropWhile isSpc) with
  | none => none
  | some r =>
    match copyrightSym r with
    | some r2 => (afterYear (r2.dropWhile isSpc)) <|> (afterYear (r.dropWhile isSpc))
    | none => afterYear (r.dropWhile isSpc)

theorem stripPfx_length {ps cs r : List Char} (h : stripPfx ps cs = some r) :
    r.length + ps.length = cs.length := by
  induction ps generalizing cs with
  | nil => simp [stripPfx] at h; simp [h]
  | cons p ps ih =>
    cases cs with
    | nil => simp [stripPfx] at h
    | cons c cs =>
      simp only [stripPfx] at h
      split at h
      · have := ih h
        simp only [List.length_cons]
        omega
      · exact absurd h (by simp)

theorem dropWhile_length_le (p : Char → Bool) (cs : List Char) :
    (cs.dropWhile p).length ≤ cs.length := by
  induction cs with
  | nil => simp
  | cons c cs ih =>
    by_cases h : p c
    · simp [List.dropWhile, h]; omega
    · simp [List.dropWhile, h]

theorem matchYear_length {cs r : List Char} (h : matchYear cs = some r) :
    r.length ≤ cs.length := by
  unfold matchYear at h
  split at h
  · split at h
    · cases h; simp; omega
    · have := stripPfx_length h; omega
  · have := stripPfx_length h; omega

theorem afterYear_length {cs r : List Char} (h : afterYear cs = some r) :
    r.length ≤ cs.length := by
  unfold afterYear at h
  cases hy : matchYear cs with
  | none => rw [hy] at h; simp at h
  | some y =>
    rw [hy] at h
    simp only [Option.map_some'] at h
    cases h
    exact le_trans (dropWhile_length_le _ _) (matchYear_length hy)

theorem copyrightSym_length {cs r : List Char} (h : copyrightSym cs = some r) :
    r.length ≤ cs.length := by
  unfold copyrightSym at h
  cases h1 : stripPfx "©".data cs with
  | some y => rw [h1] at h; simp at h; subst h; have := stripPfx_length h1; omega
  | none =>
    rw [h1] at h; simp at h
    have := stripPfx_length h; omega

theorem tryMatch_length {cs r : List Char} (h : tryMatch cs = some r) :
    r.length + 10 ≤ cs.length := by
  have hds := dropWhile_length_le isSpc cs
  cases h1 : stripPfx "copyright ".data (cs.dropWhile isSpc) with
  | none => simp only [tryMatch, h1] at h; exact absurd h (by simp)
  | some r1 =>
    simp only [tryMatch, h1] at h
    have hl1 : r1.length + 10 = (cs.dropWhile isSpc).length := by
      have := stripPfx_length h1; simpa using this
    cases h2 : copyrightSym r1 with
    | some r2 =>
      simp only [h2] at h
      have hl2 := copyrightSym_length h2
      cases h3 : afterYear (r2.dropWhile isSpc) with
      | some r3 =>
        simp [h3] at h; subst h
        have := afterYear_length h3
        have := dropWhile_length_le isSpc r2
        omega
      | none =>
        simp [h3] at h
        have := afterYear_length h
        have := dropWhile_length_le isSpc r1
        omega
    | none =>
      simp only [h2] at h
      have := afterYear_length h
      have := dropWhile_length_le isSpc r1
      omega

/-- Replace every occurrence of `reCopyright` by nothing, scanning left to
right for the leftmost match, as `ReplaceAll` does.  Structural recursion
on a fuel argument so that the kernel can evaluate it; the fuel never runs
out when it starts at the length of the text (`replaceGo_fuel`). -/
def replaceGo : Nat → List Char → List Char
  | 0, cs => cs
  | _ + 1, [] => []
  | fuel + 1, c :: rest =>
    match tryMatch (c :: rest) with
    | some r => replaceGo fuel r
    | none => c :: replaceGo fuel rest

def replaceCopyright (cs : List Char) : List Char :=
  replaceGo cs.length cs

/-- Lower-case the data and erase all copyright notice lines. -/
def cleanLicenseData (data : List Char) : List Char :=
  replaceCopyright (lowerStr data)

/-- All maximal runs of word characters and apostrophes, in order;
`cur` is the (reversed) run being read. -/
def tokenizeGo : List Char → List Char → List (List Char)
  | [], cur => if cur.isEmpty then [] else [cur.reverse]
  | c :: cs, cur =>
    if isTokChar c then tokenizeGo cs (c :: cur)
    else if cur.isEmpty then tokenizeGo cs [] else cur.reverse :: tokenizeGo cs []

/-- All maximal runs of word characters and apostrophes, in order
(the matches of `reWords`). -/
def tokenize (cs : List Char) : List (List Char) :=
  tokenizeGo cs []

/-- Word sets: association lists from token to first-seen token index. -/
abbrev WordSet := List (List Char × Nat)

/-- Insert a token found at index `i`, keeping an existing earlier entry. -/
def insertWord (ws : WordSet) (w : List Char) (i : Nat) : WordSet :=
  if (ws.lookup w).isSome then ws else ws ++ [(w, i)]

/-- Fold of `insertWord` over an indexed token list. -/
def buildWordSet : List (List Char) → Nat → WordSet → WordSet
  | [], _, acc => acc
  | w :: ws, i, acc => buildWordSet ws (i + 1) (insertWord acc w i)

/-- Word set of a raw text: normalize, tokenize, then record each distinct
token with its first occurrence index. -/
def makeWordSet (data : List Char) : WordSet :=
  buildWordSet (tokenize (cleanLicenseData data)) 0 []

example : tokenize "the mit license".data = ["the".data, "mit".data, "license".data] := by decide

example : cleanLicenseData "A\nCopyright (c) 2013 Ben\nB".data = "a\nb".data := by decide

example : cleanLicenseData "a\ncopyright © alice".data = "a\ncopyright © alice".data := by decide

example : makeWordSet "a b a".data = [("a".data, 0), ("b".data, 1)] := by decide

/- ## Word set helper lemmas -/

theorem lookup_isSome_iff {ws : WordSet} {w : List Char} :
    (ws.lookup w).isSome ↔ w ∈ ws.map Prod.fst := by
  induction ws with
  | nil => simp [List.lookup]
  | cons p ws ih =>
    by_cases h : w = p.1
    · subst h; simp [List.lookup]
    · have h' : (w == p.1) = false := by simp [h]
      simp [List.lookup, h', ih, h]

theorem lookup_eq_some_of_mem {ws : WordSet} (hnd : (ws.map Prod.fst).Nodup)
    {w : List Char} {p : Nat} (h : (w, p) ∈ ws) : ws.lookup w = some p := by
  induction ws with
  | nil => simp at h
  | cons q ws ih =>
    simp only [List.map_cons, List.nodup_cons] at hnd
    rcases List.mem_cons.1 h with h1 | h1
    · rw [← h1]; simp [List.lookup]
    · have hne : w ≠ q.1 := by
        intro he
        exact hnd.1 (he ▸ (List.mem_map.2 ⟨(w, p), h1, rfl⟩))
      have h' : (w == q.1) = false := by simp [hne]
      simp [List.lookup, h', ih hnd.2 h1]

theorem mem_of_lookup_eq_some {ws : WordSet} {w : List Char} {p : Nat}
    (h : ws.lookup w = some p) : (w, p) ∈ ws := by
  induction ws with
  | nil => simp [List.lookup] at h
  | cons q ws ih =>
    obtain ⟨k, v⟩ := q
    by_cases he : w = k
    · subst he
      simp [List.lookup] at h
      subst h
      exact List.mem_cons_self _ _
    · have h' : (w == k) = false := by simp [he]
      simp only [List.lookup, h'] at h
      exact List.mem_cons.2 (Or.inr (ih h))

theorem buildWordSet_inv (toks : List (List Char)) (i : Nat) (acc : WordSet)
    (h1 : (acc.map Prod.fst).Nodup) (h2 : ∀ p ∈ acc, p.2 < i)
    (h3 : acc.Pairwise (fun a b => a.2 < b.2)) :
    ((buildWordSet toks i acc).map Prod.fst).Nodup ∧
      (buildWordSet toks i acc).Pairwise (fun a b => a.2 < b.2) := by
  induction toks generalizing i acc with
  | nil => exact ⟨h1, h3⟩
  | cons w ws ih =>
    simp only [buildWordSet]
    by_cases hmem : ((acc.lookup w).isSome : Prop)
    · have : insertWord acc w i = acc := by simp [insertWord, hmem]
      rw [this]
      exact ih (i + 1) acc h1 (fun p hp => Nat.lt_succ_of_lt (h2 p hp)) h3
    · have : insertWord acc w i = acc ++ [(w, i)] := by
        simp only [insertWord]
        rw [if_neg hmem]
      rw [this]
      refine ih (i + 1) _ ?_ ?_ ?_
      · rw [List.map_append, List.nodup_append]
        refine ⟨h1, by simp, ?_⟩
        intro a ha hb
        simp at hb
        subst hb
        exact hmem (lookup_isSome_iff.2 ha)
      · intro p hp
        rcases List.mem_append.1 hp with hp | hp
        · exact Nat.lt_succ_of_lt (h2 p hp)
        · simp at hp; subst hp; exact Nat.lt_succ_self i
      · rw [List.pairwise_append]
        exact ⟨h3, List.pairwise_singleton _ _, fun a ha b hb => by
          simp at hb; subst hb; exact h2 a ha⟩

theorem makeWordSet_keys_nodup (d : List Char) :
    ((makeWordSet d).map Prod.fst).Nodup :=
  (buildWordSet_inv _ 0 [] (by simp) (by simp) (by simp)).1

theorem makeWordSet_pos_strict (d : List Char) :
    (makeWordSet d).Pairwise (fun a b => a.2 < b.2) :=
  (buildWordSet_inv _ 0 [] (by simp) (by simp) (by simp)).2

/- ## Template matching (matchTemplates) -/

structure Template where
  Title : String
  Nickname : String
  Words : WordSet
deriving DecidableEq

/-- Sample words found in the template word set, counted while iterating
over the sample word set. -/
def commonOf (words tW : WordSet) : Nat :=
  (words.filter (fun p => (tW.lookup p.1).isSome)).length

/-- Sample words not found in the template word set, with their sample
positions, in sample iteration order. -/
def extraOf (words tW : WordSet) : List (List Char × Nat) :=
  words.filter (fun p => !(tW.lookup p.1).isSome)

/-- Template words not found in the sample word set, with their template
positions. -/
def missingOf (tW words : WordSet) : List (List Char × Nat) :=
  tW.filter (fun p => !(words.lookup p.1).isSome)

/-- The score `2*common/(|sample|+|template|)` of the source, as an exact
rational (spelled with `mkRat` so that the kernel can evaluate it).  The
source computes it in binary floating point; for the zero denominator the
float result is NaN, which this model handles at the comparison site
instead. -/
def scoreOf (words tW : WordSet) : ℚ :=
  mkRat (2 * (commonOf words tW : ℤ)) (words.length + tW.length)

theorem scoreOf_eq_div (words tW : WordSet) :
    scoreOf words tW =
      2 * (commonOf words tW : ℚ) / ((words.length : ℚ) + (tW.length : ℚ)) := by
  unfold scoreOf
  rw [Rat.mkRat_eq_div]
  push_cast
  ring

/-- Sorting relation of `sortedWords`: by original token position. -/
def posLe (a b : List Char × Nat) : Prop := a.2 ≤ b.2

instance : DecidableRel posLe := fun a b => Nat.decLe a.2 b.2

instance : IsTotal (List Char × Nat) posLe := ⟨fun a b => Nat.le_total a.2 b.2⟩

instance : IsTrans (List Char × Nat) posLe := ⟨fun _ _ _ h1 h2 => Nat.le_trans h1 h2⟩

/-- Sort the words by original position and return their texts. -/
def sortAndReturnWords (ws : List (List Char × Nat)) : List (List Char) :=
  (List.insertionSort posLe ws).map Prod.fst

/-- Running state of the template loop of `matchTemplates`. -/
structure MatchState where
  bestScore : ℚ
  bestTemplate : Option Template
  bestExtra : List (List Char × Nat)
  bestMissing : List (List Char × Nat)
deriving DecidableEq

/-- One iteration of the template loop.  When both word sets are empty the
float score of the source is `0/0 = NaN` and `NaN > bestScore` is false,
so the template never replaces the incumbent; that is the first conjunct
of the test below. -/
def mtStep (words : WordSet) (acc : MatchState) (t : Template) : MatchState :=
  if words.length + t.Words.length ≠ 0 ∧ scoreOf words t.Words > acc.bestScore then
    ⟨scoreOf words t.Words, some t, extraOf words t.Words, missingOf t.Words words⟩
  else acc

structure MatchResult where
  Template : Option Template
  Score : ℚ
  ExtraWords : List (List Char)
  MissingWords : List (List Char)
deriving DecidableEq

/-- Best license template matching the supplied data: fold the template
loop over the corpus starting from score `-1` and no template, then sort
the diagnostic word lists of the winner. -/
def matchTemplates (license : List Char) (templates : List Template) : MatchResult :=
  let words := makeWordSet license
  let fin := templates.foldl (mtStep words) ⟨-1, none, [], []⟩
  ⟨fin.bestTemplate, fin.bestScore, sortAndReturnWords fin.bestExtra,
    sortAndReturnWords fin.bestMissing⟩

/- ## The template loop invariant -/

/-- State of the template loop after processing the templates `processed`:
either nothing could be scored against a real number yet, or the state
holds the earliest template of maximal real score. -/
def goodState (words : WordSet) (processed : List Template) (s : MatchState) : Prop :=
  (s = ⟨-1, none, [], []⟩ ∧ ∀ t ∈ processed, words.length + t.Words.length = 0) ∨
  (∃ pre t post, processed = pre ++ t :: post ∧
    words.length + t.Words.length ≠ 0 ∧
    s.bestScore = scoreOf words t.Words ∧
    s.bestTemplate = some t ∧
    s.bestExtra = extraOf words t.Words ∧
    s.bestMissing = missingOf t.Words words ∧
    (∀ u ∈ processed, words.length + u.Words.length ≠ 0 →
      scoreOf words u.Words ≤ scoreOf words t.Words) ∧
    (∀ u ∈ pre, words.length + u.Words.length ≠ 0 →
      scoreOf words u.Words < scoreOf words t.Words))

theorem scoreOf_nonneg (words tW : WordSet) : 0 ≤ scoreOf words tW := by
  rw [scoreOf_eq_div]
  apply div_nonneg
  · positivity
  · positivity

theorem goodState_step (words : WordSet) (processed : List Template)
    (s : MatchState) (t : Template) (h : goodState words processed s) :
    goodState words (processed ++ [t]) (mtStep words s t) := by
  unfold mtStep
  by_cases hc : words.length + t.Words.length ≠ 0 ∧ scoreOf words t.Words > s.bestScore
  · rw [if_pos hc]
    right
    refine ⟨processed, t, [], by simp, hc.1, rfl, rfl, rfl, rfl, ?_, ?_⟩
    · intro u hu hden
      rcases List.mem_append.1 hu with hu | hu
      · rcases h with ⟨hs, hall⟩ | ⟨pre, t', post, _, _, hsc, _, _, _, hub, _⟩
        · exact absurd (hall u hu) hden
        · exact le_of_lt (lt_of_le_of_lt (hsc ▸ hub u hu hden) hc.2)
      · simp at hu; subst hu; exact le_refl _
    · intro u hu hden
      rcases h with ⟨hs, hall⟩ | ⟨pre, t', post, _, _, hsc, _, _, _, hub, _⟩
      · exact absurd (hall u hu) hden
      · exact lt_of_le_of_lt (hsc ▸ hub u hu hden) hc.2
  · rw [if_neg hc]
    push_neg at hc
    rcases h with ⟨hs, hall⟩ | ⟨pre, t', post, hsplit, hden', hsc, htm, hex, hmi, hub, hst⟩
    · by_cases hden : words.length + t.Words.length = 0
      · exact Or.inl ⟨hs, fun u hu => by
          rcases List.mem_append.1 hu with hu | hu
          · exact hall u hu
          · simp at hu; subst hu; exact hden⟩
      · exfalso
        have h1 : scoreOf words t.Words ≤ s.bestScore := hc hden
        rw [hs] at h1
        have h2 : (0 : ℚ) ≤ scoreOf words t.Words := scoreOf_nonneg words t.Words
        have : (0 : ℚ) ≤ -1 := le_trans h2 h1
        norm_num at this
    · right
      refine ⟨pre, t', post ++ [t], by rw [hsplit]; simp, hden', hsc, htm, hex, hmi, ?_, hst⟩
      intro u hu hden
      rcases List.mem_append.1 hu with hu | hu
      · exact hub u hu hden
      · simp at hu; subst hu
        exact hsc ▸ hc hden

theorem goodState_foldl (words : WordSet) :
    ∀ (ts processed : List Template) (s : MatchState),
      goodState words processed s →
      goodState words (processed ++ ts) (ts.foldl (mtStep words) s)
  | [], processed, s, h => by simpa using h
  | t :: ts, processed, s, h => by
    have h2 := goodState_foldl words ts (processed ++ [t]) (mtStep words s t)
      (goodState_step words processed s t h)
    simpa using h2

theorem matchTemplates_goodState (lic : List Char) (ts : List Template) :
    goodState (makeWordSet lic) ts
      (ts.foldl (mtStep (makeWordSet lic)) ⟨-1, none, [], []⟩) := by
  have h := goodState_foldl (makeWordSet lic) ts [] ⟨-1, none, [], []⟩
    (Or.inl ⟨rfl, by simp⟩)
  simpa using h

theorem matchTemplates_eq (lic : List Char) (ts : List Template) :
    matchTemplates lic ts =
      ⟨(ts.foldl (mtStep (makeWordSet lic)) ⟨-1, none, [], []⟩).bestTemplate,
       (ts.foldl (mtStep (makeWordSet lic)) ⟨-1, none, [], []⟩).bestScore,
       sortAndReturnWords (ts.foldl (mtStep (makeWordSet lic)) ⟨-1, none, [], []⟩).bestExtra,
       sortAndReturnWords
         (ts.foldl (mtStep (makeWordSet lic)) ⟨-1, none, [], []⟩).bestMissing⟩ := rfl

/- ## Score bounds -/

theorem commonOf_le_left (words tW : WordSet) : commonOf words tW ≤ words.length :=
  List.length_filter_le _ _

theorem commonOf_le_right (words tW : WordSet)
    (hn : (words.map Prod.fst).Nodup) : commonOf words tW ≤ tW.length := by
  unfold commonOf
  set F := words.filter (fun p => (tW.lookup p.1).isSome) with hF
  have hsub : F.Sublist words := List.filter_sublist _
  have hmapnd : (F.map Prod.fst).Nodup := (hsub.map Prod.fst).nodup hn
  have hss : (F.map Prod.fst) ⊆ (tW.map Prod.fst) := by
    intro w hw
    rcases List.mem_map.1 hw with ⟨p, hp, rfl⟩
    have hp2 := List.of_mem_filter hp
    exact lookup_isSome_iff.1 (by simpa using hp2)
  calc F.length = (F.map Prod.fst).length := (List.length_map _ _).symm
    _ = (F.map Prod.fst).toFinset.card := (List.toFinset_card_of_nodup hmapnd).symm
    _ ≤ (tW.map Prod.fst).toFinset.card := Finset.card_le_card
        (fun x hx => List.mem_toFinset.2 (hss (List.mem_toFinset.1 hx)))
    _ ≤ (tW.map Prod.fst).length := List.toFinset_card_le _
    _ = tW.length := List.length_map _ _

theorem scoreOf_le_one (words tW : WordSet)
    (hn : (words.map Prod.fst).Nodup) : scoreOf words tW ≤ 1 := by
  rw [scoreOf_eq_div]
  rcases Nat.eq_zero_or_pos (words.length + tW.length) with h | h
  · have h1 : words.length = 0 := by omega
    have h2 : tW.length = 0 := by omega
    have hc : commonOf words tW = 0 :=
      Nat.le_zero.1 (h1 ▸ commonOf_le_left words tW)
    rw [hc, h1, h2]
    norm_num
  · have hpos : (0 : ℚ) < (words.length : ℚ) + (tW.length : ℚ) := by
      have : (0 : ℚ) < ((words.length + tW.length : ℕ) : ℚ) := by exact_mod_cast h
      push_cast at this
      linarith
    rw [div_le_one hpos]
    have h1 := commonOf_le_left words tW
    have h2 := commonOf_le_right words tW hn
    have c1 : (commonOf words tW : ℚ) ≤ (words.length : ℚ) := by exact_mod_cast h1
    have c2 : (commonOf words tW : ℚ) ≤ (tW.length : ℚ) := by exact_mod_cast h2
    linarith

theorem scoreOf_self (ws : WordSet) (_hn : (ws.map Prod.fst).Nodup)
    (hne : ws ≠ []) : scoreOf ws ws = 1 := by
  have hc : commonOf ws ws = ws.length := by
    unfold commonOf
    rw [List.filter_eq_self.2 ?_, ]
    intro p hp
    simpa using lookup_isSome_iff.2 (List.mem_map.2 ⟨p, hp, rfl⟩)
  rw [scoreOf_eq_div, hc]
  have hlen : (0 : ℚ) < (ws.length : ℚ) := by
    have : 0 < ws.length := List.length_pos.2 hne
    exact_mod_cast this
  have hden : (ws.length : ℚ) + (ws.length : ℚ) = 2 * (ws.length : ℚ) := by ring
  rw [hden]
  rw [div_self (by linarith)]

/- ## Claim C3: scoring and tie-breaking of matchTemplates -/

/-- Claim C3 (amended): whenever some template scores a real number at all
(the sample and the template are not both empty after normalization,
otherwise the float score of the source is NaN and the template can never
win), `matchTemplates` scores each such template as
`2*common/(|sample|+|template|)` and returns the earliest template of
maximal real score; templates with both word sets empty are never
selected. -/
theorem matchTemplates_earliest_max (lic : List Char) (ts : List Template)
    (h : ∃ t ∈ ts, (makeWordSet lic).length + t.Words.length ≠ 0) :
    ∃ pre t post, ts = pre ++ t :: post ∧
      (matchTemplates lic ts).Template = some t ∧
      (makeWordSet lic).length + t.Words.length ≠ 0 ∧
      (matchTemplates lic ts).Score = scoreOf (makeWordSet lic) t.Words ∧
      (∀ u ∈ ts, (makeWordSet lic).length + u.Words.length ≠ 0 →
        scoreOf (makeWordSet lic) u.Words ≤ scoreOf (makeWordSet lic) t.Words) ∧
      (∀ u ∈ pre, (makeWordSet lic).length + u.Words.length ≠ 0 →
        scoreOf (makeWordSet lic) u.Words < scoreOf (makeWordSet lic) t.Words) := by
  rcases matchTemplates_goodState lic ts with ⟨hs, hall⟩ |
    ⟨pre, t, post, hsplit, hden, hsc, htm, _, _, hub, hst⟩
  · obtain ⟨t, hmem, hdent⟩ := h
    exact absurd (hall t hmem) hdent
  · refine ⟨pre, t, post, hsplit, ?_, hden, ?_, hub, hst⟩
    · rw [matchTemplates_eq]; exact htm
    · rw [matchTemplates_eq]; exact hsc

theorem matchTemplates_earliest_max_witness :
    ∃ pre t post,
      [Template.mk "A" "" (makeWordSet "aa".data)] = pre ++ t :: post ∧
      (matchTemplates "aa".data [Template.mk "A" "" (makeWordSet "aa".data)]).Template = some t ∧
      (makeWordSet "aa".data).length + t.Words.length ≠ 0 ∧
      (matchTemplates "aa".data [Template.mk "A" "" (makeWordSet "aa".data)]).Score =
        scoreOf (makeWordSet "aa".data) t.Words ∧
      (∀ u ∈ [Template.mk "A" "" (makeWordSet "aa".data)],
        (makeWordSet "aa".data).length + u.Words.length ≠ 0 →
        scoreOf (makeWordSet "aa".data) u.Words ≤ scoreOf (makeWordSet "aa".data) t.Words) ∧
      (∀ u ∈ pre, (makeWordSet "aa".data).length + u.Words.length ≠ 0 →
        scoreOf (makeWordSet "aa".data) u.Words < scoreOf (makeWordSet "aa".data) t.Words) :=
  matchTemplates_earliest_max "aa".data [Template.mk "A" "" (makeWordSet "aa".data)]
    ⟨Template.mk "A" "" (makeWordSet "aa".data), by decide, by decide⟩

/-- Claim C3 counterexample: with an empty sample text and a corpus of one
template whose word set is empty, the corpus is non-empty and yet no
template is returned (the float score of the source is `0/0 = NaN`,
which never beats the initial `-1`). -/
theorem matchTemplates_degenerate_counterexample :
    (matchTemplates [] [Template.mk "E" "" []]).Template = none ∧
    (matchTemplates [] [Template.mk "E" "" []]).Score = -1 ∧
    ([Template.mk "E" "" []] : List Template) ≠ [] := by decide

/- ## Claim C8: self-similarity -/

/-- Claim C8 (amended): for every text whose normalized word set is
non-empty, matching against a corpus containing the template built from
the text's own body scores that template exactly 1, and the returned
best score is exactly 1.  (For a text with an empty normalized word set
the self template's float score in the source is NaN, and no score of 1
is produced.) -/
theorem matchTemplates_self (lic : List Char) (ts : List Template) (t : Template)
    (hmem : t ∈ ts) (ht : t.Words = makeWordSet lic) (hne : makeWordSet lic ≠ []) :
    scoreOf (makeWordSet lic) t.Words = 1 ∧ (matchTemplates lic ts).Score = 1 := by
  have hnd := makeWordSet_keys_nodup lic
  have hself : scoreOf (makeWordSet lic) t.Words = 1 := by
    rw [ht]; exact scoreOf_self _ hnd hne
  refine ⟨hself, ?_⟩
  have hlen : (makeWordSet lic).length ≠ 0 := fun h0 => hne (List.length_eq_zero.1 h0)
  rcases matchTemplates_goodState lic ts with ⟨hs, hall⟩ |
    ⟨pre, t', post, hsplit, hden, hsc, _, _, _, hub, _⟩
  · exact absurd (hall t hmem) (by omega)
  · rw [matchTemplates_eq]
    simp only
    rw [hsc]
    have h1 : scoreOf (makeWordSet lic) t.Words ≤ scoreOf (makeWordSet lic) t'.Words :=
      hub t hmem (by omega)
    have h2 : scoreOf (makeWordSet lic) t'.Words ≤ 1 := scoreOf_le_one _ _ hnd
    rw [hself] at h1
    linarith

theorem matchTemplates_self_witness :
    scoreOf (makeWordSet "aa bb".data)
      (Template.mk "A" "" (makeWordSet "aa bb".data)).Words = 1 ∧
    (matchTemplates "aa bb".data [Template.mk "A" "" (makeWordSet "aa bb".data)]).Score = 1 :=
  matchTemplates_self "aa bb".data [Template.mk "A" "" (makeWordSet "aa bb".data)]
    (Template.mk "A" "" (makeWordSet "aa bb".data)) (by decide) (by decide) (by decide)

/-- Claim C8 counterexample: for the empty text, whose normalized word set
is empty, the corpus containing the template built from its own body does
not yield score 1 (the source computes `0/0 = NaN`, modelled here as the
never-updated initial score `-1`). -/
theorem matchTemplates_self_empty_counterexample :
    (matchTemplates [] [Template.mk "T" "" (makeWordSet [])]).Score ≠ 1 ∧
    (matchTemplates [] [Template.mk "T" "" (makeWordSet [])]).Score = -1 ∧
    (Template.mk "T" "" (makeWordSet [])).Words = makeWordSet [] := by decide

/- ## Claim C7: the diagnostic word lists -/

/-- Original first-occurrence position of a word in a word set. -/
def posIn (ws : WordSet) (w : List Char) : Nat := (ws.lookup w).getD 0

theorem sortAndReturnWords_mem {L : List (List Char × Nat)} {w : List Char} :
    w ∈ sortAndReturnWords L ↔ ∃ p, (w, p) ∈ L := by
  unfold sortAndReturnWords
  constructor
  · intro h
    rcases List.mem_map.1 h with ⟨q, hq, rfl⟩
    refine ⟨q.2, ?_⟩
    have hm := (List.perm_insertionSort posLe L).mem_iff.1 hq
    cases q
    exact hm
  · rintro ⟨p, hp⟩
    exact List.mem_map.2 ⟨(w, p), (List.perm_insertionSort posLe L).mem_iff.2 hp, rfl⟩

theorem mem_extraOf {words tW : WordSet} {w : List Char} {p : Nat} :
    (w, p) ∈ extraOf words tW ↔ ((w, p) ∈ words ∧ tW.lookup w = none) := by
  unfold extraOf
  rw [List.mem_filter]
  simp [Option.isNone_iff_eq_none]

theorem mem_missingOf {tW words : WordSet} {w : List Char} {p : Nat} :
    (w, p) ∈ missingOf tW words ↔ ((w, p) ∈ tW ∧ words.lookup w = none) := by
  unfold missingOf
  rw [List.mem_filter]
  simp [Option.isNone_iff_eq_none]

theorem pairwise_lt_of_le_nodup {L : List (List Char × Nat)}
    (h1 : L.Pairwise posLe) (h2 : (L.map Prod.snd).Nodup) :
    L.Pairwise (fun a b => a.2 < b.2) := by
  induction L with
  | nil => simp
  | cons a L ih =>
    rw [List.pairwise_cons] at h1 ⊢
    rw [List.map_cons, List.nodup_cons] at h2
    refine ⟨fun b hb => lt_of_le_of_ne (h1.1 b hb) ?_, ih h1.2 h2.2⟩
    intro he
    exact h2.1 (he ▸ List.mem_map.2 ⟨b, hb, rfl⟩)

theorem snd_nodup_of_pos_strict {L : List (List Char × Nat)}
    (h : L.Pairwise (fun a b => a.2 < b.2)) : (L.map Prod.snd).Nodup :=
  List.pairwise_map.2 (h.imp (fun hab => Nat.ne_of_lt hab))

/-- The sorted word texts of a position-distinct filtered word set are in
strictly increasing first-occurrence position order, looked up in `base`. -/
theorem sortAndReturnWords_pairwise {base : WordSet} {L : List (List Char × Nat)}
    (hsub : L.Sublist base) (hk : (base.map Prod.fst).Nodup)
    (hsnd : (base.map Prod.snd).Nodup) :
    (sortAndReturnWords L).Pairwise (fun a b => posIn base a < posIn base b) := by
  unfold sortAndReturnWords
  set S := List.insertionSort posLe L with hS
  have hsorted : S.Pairwise posLe := List.sorted_insertionSort posLe L
  have hLsnd : (L.map Prod.snd).Nodup := ((hsub.map Prod.snd)).nodup hsnd
  have hSsnd : (S.map Prod.snd).Nodup :=
    (((List.perm_insertionSort posLe L).map Prod.snd).nodup_iff).2 hLsnd
  have hSlt : S.Pairwise (fun a b => a.2 < b.2) := pairwise_lt_of_le_nodup hsorted hSsnd
  rw [List.pairwise_map]
  refine hSlt.imp_of_mem ?_
  intro a b ha hb hab
  have haL : a ∈ L := (List.perm_insertionSort posLe L).mem_iff.1 ha
  have hbL : b ∈ L := (List.perm_insertionSort posLe L).mem_iff.1 hb
  have haB : a ∈ base := hsub.mem haL
  have hbB : b ∈ base := hsub.mem hbL
  have hla : base.lookup a.1 = some a.2 := lookup_eq_some_of_mem hk (by cases a; exact haB)
  have hlb : base.lookup b.1 = some b.2 := lookup_eq_some_of_mem hk (by cases b; exact hbB)
  unfold posIn
  rw [hla, hlb]
  exact hab

/-- Claim C7: for the winning template, `ExtraWords` are exactly the sample
words absent from the template word set and `MissingWords` exactly the
template words absent from the sample word set, and each list is in
strictly increasing original first-occurrence position order (sample
positions for extra words, template positions for missing words).  The
template word set is assumed well formed (distinct keys and positions),
as all templates built by the corpus loader are. -/
theorem matchTemplates_diagnostics (lic : List Char) (ts : List Template) (t : Template)
    (hres : (matchTemplates lic ts).Template = some t)
    (hk : (t.Words.map Prod.fst).Nodup)
    (hp : (t.Words.map Prod.snd).Nodup) :
    (∀ w, w ∈ (matchTemplates lic ts).ExtraWords ↔
      (((makeWordSet lic).lookup w).isSome ∧ t.Words.lookup w = none)) ∧
    (∀ w, w ∈ (matchTemplates lic ts).MissingWords ↔
      ((t.Words.lookup w).isSome ∧ (makeWordSet lic).lookup w = none)) ∧
    (matchTemplates lic ts).ExtraWords.Pairwise
      (fun a b => posIn (makeWordSet lic) a < posIn (makeWordSet lic) b) ∧
    (matchTemplates lic ts).MissingWords.Pairwise
      (fun a b => posIn t.Words a < posIn t.Words b) := by
  rcases matchTemplates_goodState lic ts with ⟨hs, _⟩ |
    ⟨pre, t', post, hsplit, hden, hsc, htm, hex, hmi, _, _⟩
  · rw [matchTemplates_eq] at hres
    simp only at hres
    rw [hs] at hres
    simp at hres
  · rw [matchTemplates_eq] at hres ⊢
    simp only at hres ⊢
    rw [htm] at hres
    have ht' : t' = t := Option.some.inj hres
    subst ht'
    rw [hex, hmi]
    have hwk := makeWordSet_keys_nodup lic
    have hws := snd_nodup_of_pos_strict (makeWordSet_pos_strict lic)
    refine ⟨?_, ?_, ?_, ?_⟩
    · intro w
      rw [sortAndReturnWords_mem]
      constructor
      · rintro ⟨p, hp2⟩
        rcases mem_extraOf.1 hp2 with ⟨hmem, hnone⟩
        exact ⟨lookup_isSome_iff.2 (List.mem_map.2 ⟨(w, p), hmem, rfl⟩), hnone⟩
      · rintro ⟨hsome, hnone⟩
        rcases Option.isSome_iff_exists.1 hsome with ⟨p, hp2⟩
        exact ⟨p, mem_extraOf.2 ⟨mem_of_lookup_eq_some hp2, hnone⟩⟩
    · intro w
      rw [sortAndReturnWords_mem]
      constructor
      · rintro ⟨p, hp2⟩
        rcases mem_missingOf.1 hp2 with ⟨hmem, hnone⟩
        exact ⟨lookup_isSome_iff.2 (List.mem_map.2 ⟨(w, p), hmem, rfl⟩), hnone⟩
      · rintro ⟨hsome, hnone⟩
        rcases Option.isSome_iff_exists.1 hsome with ⟨p, hp2⟩
        exact ⟨p, mem_missingOf.2 ⟨mem_of_lookup_eq_some hp2, hnone⟩⟩
    · exact sortAndReturnWords_pairwise (List.filter_sublist _) hwk hws
    · exact sortAndReturnWords_pairwise (List.filter_sublist _) hk hp

theorem matchTemplates_diagnostics_witness :
    (∀ w, w ∈ (matchTemplates "aa bb".data
        [Template.mk "T" "" (makeWordSet "bb cc".data)]).ExtraWords ↔
      (((makeWordSet "aa bb".data).lookup w).isSome ∧
        (Template.mk "T" "" (makeWordSet "bb cc".data)).Words.lookup w = none)) ∧
    (∀ w, w ∈ (matchTemplates "aa bb".data
        [Template.mk "T" "" (makeWordSet "bb cc".data)]).MissingWords ↔
      (((Template.mk "T" "" (makeWordSet "bb cc".data)).Words.lookup w).isSome ∧
        (makeWordSet "aa bb".data).lookup w = none)) ∧
    (matchTemplates "aa bb".data
        [Template.mk "T" "" (makeWordSet "bb cc".data)]).ExtraWords.Pairwise
      (fun a b => posIn (makeWordSet "aa bb".data) a < posIn (makeWordSet "aa bb".data) b) ∧
    (matchTemplates "aa bb".data
        [Template.mk "T" "" (makeWordSet "bb cc".data)]).MissingWords.Pairwise
      (fun a b => posIn (Template.mk "T" "" (makeWordSet "bb cc".data)).Words a <
        posIn (Template.mk "T" "" (makeWordSet "bb cc".data)).Words b) :=
  matchTemplates_diagnostics "aa bb".data
    [Template.mk "T" "" (makeWordSet "bb cc".data)]
    (Template.mk "T" "" (makeWordSet "bb cc".data))
    (by decide) (by decide) (by decide)

/- ## License data (License, LicenseInfo) -/

structure LicenseInfo where
  Path : String
  Score : ℚ
  Template : Option Template
  ExtraWords : List (List Char)
  MissingWords : List (List Char)
deriving DecidableEq

structure License where
  Package : String
  LicenseInfos : List LicenseInfo
  Err : String
deriving DecidableEq

/- ## The license file locator (scoreLicenseName, findLicenses) -/

/-- The optional extension of `reLicense`: nothing, or a dot followed by a
non-empty run of further characters none of which is a dot, ending the
name. -/
def extOk : List Char → Bool
  | [] => true
  | c :: rest => c == '.' && !rest.isEmpty && rest.all (fun d => !(d == '.'))

/-- Whether the file name matches `reLicense` with a non-empty group:
`(un)licen[sc]e` or `copy(ing|right)`, case-insensitively, optionally
followed by one extension.  The source returns the scores 1 and 0 as
integers; `true` models 1.  (The empty alternative of the pattern matches
the empty name, but yields score 0 like a non-match.) -/
def scoreLicenseName (name : String) : Bool :=
  let n := name.data.map Char.toLower
  let tail := fun (r : Option (List Char)) =>
    match r with
    | some rest => extOk rest
    | none => false
  tail (stripPfx "unlicense".data n) || tail (stripPfx "unlicence".data n) ||
  tail (stripPfx "license".data n) || tail (stripPfx "licence".data n) ||
  tail (stripPfx "copying".data n) || tail (stripPfx "copyright".data n)

/-- A directory entry: name and whether the entry is a regular file. -/
structure DirEntry where
  name : String
  isRegular : Bool
deriving DecidableEq

/-- Shallow model of reading a directory under `Root/src`: the relative
directory is a list of `/`-separated components. -/
abbrev ReadDir := List String → Except String (List DirEntry)

/-- Model of `filepath.Join` over component lists. -/
def joinPath : List String → String
  | [] => ""
  | [s] => s
  | s :: rest => s ++ "/" ++ joinPath rest

/-- The license-named regular files of a directory listing, as joined
paths, in listing order. -/
def viableNames (comps : List String) (fis : List DirEntry) : List String :=
  (fis.filter (fun fi => fi.isRegular && scoreLicenseName fi.name)).map
    (fun fi => joinPath (comps ++ [fi.name]))

/-- The ancestor walk of `findLicenses`.  The loop variable `path` of the
source is the component list; `filepath.Dir` drops its last component and
`"."` is the empty list.  Structural recursion on a fuel argument so the
kernel can evaluate it; the fuel never runs out when it starts at the
number of components. -/
def findLicensesGo (readDir : ReadDir) : Nat → List String → Except String (List String)
  | _, [] => Except.ok [""]
  | 0, _ :: _ => Except.ok [""]
  | fuel + 1, c :: rest =>
    match readDir (c :: rest) with
    | Except.error e => Except.error e
    | Except.ok fis =>
      let allViableNames := viableNames (c :: rest) fis
      if allViableNames.isEmpty then findLicensesGo readDir fuel (c :: rest).dropLast
      else Except.ok allViableNames

/-- Look for license files in the package directory and parent
directories until a file is found or the source root is reached.  A read
error fails the call (the source returns the pair `([""], err)`; the
caller treats any non-nil error as fatal, which `Except.error` models). -/
def findLicenses (readDir : ReadDir) (comps : List String) : Except String (List String) :=
  findLicensesGo readDir comps.length comps

/-- Iterated `filepath.Dir`: drop the last `k` components. -/
def dropIter : Nat → List String → List String
  | 0, l => l
  | k + 1, l => (dropIter k l).dropLast

example : scoreLicenseName "LICENSE.md" = true := by decide

example : scoreLicenseName "license.foo.bar" = false := by decide

example : scoreLicenseName "UnLicence" = true := by decide

example : scoreLicenseName "copyright.txt" = true := by decide

example : scoreLicenseName "README" = false := by decide

example : scoreLicenseName "" = false := by decide

theorem dropIter_dropLast (k : Nat) (l : List String) :
    dropIter k l.dropLast = dropIter (k + 1) l := by
  induction k with
  | zero => rfl
  | succ k ih =>
    show (dropIter k l.dropLast).dropLast = (dropIter (k + 1) l).dropLast
    rw [ih]

theorem findLicensesGo_walk (rd : ReadDir) (n : Nat) :
    ∀ (fuel : Nat) (comps : List String), comps.length ≤ fuel →
    (∀ j < n, dropIter j comps ≠ [] ∧
      ∃ fis, rd (dropIter j comps) = Except.ok fis ∧
        viableNames (dropIter j comps) fis = []) →
    ((dropIter n comps = [] → findLicensesGo rd fuel comps = Except.ok [""]) ∧
     (∀ msg, dropIter n comps ≠ [] → rd (dropIter n comps) = Except.error msg →
       findLicensesGo rd fuel comps = Except.error msg) ∧
     (∀ fis, dropIter n comps ≠ [] → rd (dropIter n comps) = Except.ok fis →
       viableNames (dropIter n comps) fis ≠ [] →
       findLicensesGo rd fuel comps = Except.ok (viableNames (dropIter n comps) fis))) := by
  induction n with
  | zero =>
    intro fuel comps hfuel _
    refine ⟨?_, ?_, ?_⟩
    · intro hnil
      rw [show dropIter 0 comps = comps from rfl] at hnil
      subst hnil
      cases fuel <;> rfl
    · intro msg hne hrd
      rw [show dropIter 0 comps = comps from rfl] at hne hrd
      match comps, hne with
      | c :: rest, _ =>
        have : 0 < fuel := lt_of_lt_of_le (by simp) hfuel
        match fuel, this with
        | f + 1, _ =>
          show (match rd (c :: rest) with
            | Except.error e => Except.error e
            | Except.ok fis =>
              let allViableNames := viableNames (c :: rest) fis
              if allViableNames.isEmpty then findLicensesGo rd f (c :: rest).dropLast
              else Except.ok allViableNames) = Except.error msg
          rw [hrd]
    · intro fis hne hrd hv
      rw [show dropIter 0 comps = comps from rfl] at hne hrd hv
      match comps, hne with
      | c :: rest, _ =>
        have : 0 < fuel := lt_of_lt_of_le (by simp) hfuel
        match fuel, this with
        | f + 1, _ =>
          show (match rd (c :: rest) with
            | Except.error e => Except.error e
            | Except.ok fis =>
              let allViableNames := viableNames (c :: rest) fis
              if allViableNames.isEmpty then findLicensesGo rd f (c :: rest).dropLast
              else Except.ok allViableNames) = _
          rw [hrd]
          simp only [List.isEmpty_iff]
          rw [if_neg hv]
          rfl
  | succ n ih =>
    intro fuel comps hfuel hn
    obtain ⟨hne0, fis0, hrd0, hv0⟩ := hn 0 (Nat.succ_pos n)
    rw [show dropIter 0 comps = comps from rfl] at hne0 hrd0 hv0
    match comps, hne0 with
    | c :: rest, _ =>
      have hlen : 0 < fuel := lt_of_lt_of_le (by simp) hfuel
      match fuel, hlen with
      | f + 1, _ =>
        have hstep : findLicensesGo rd (f + 1) (c :: rest) =
            findLicensesGo rd f (c :: rest).dropLast := by
          show (match rd (c :: rest) with
            | Except.error e => Except.error e
            | Except.ok fis =>
              let allViableNames := viableNames (c :: rest) fis
              if allViableNames.isEmpty then findLicensesGo rd f (c :: rest).dropLast
              else Except.ok allViableNames) = _
          rw [hrd0]
          simp only [hv0, List.isEmpty_nil, if_true]
        have hflen : (c :: rest).dropLast.length ≤ f := by
          rw [List.length_dropLast]
          simp only [List.length_cons] at hfuel ⊢
          omega
        have hn' : ∀ j < n, dropIter j (c :: rest).dropLast ≠ [] ∧
            ∃ fis, rd (dropIter j (c :: rest).dropLast) = Except.ok fis ∧
              viableNames (dropIter j (c :: rest).dropLast) fis = [] := by
          intro j hj
          rw [dropIter_dropLast]
          exact hn (j + 1) (Nat.succ_lt_succ hj)
        have hmain := ih f (c :: rest).dropLast hflen hn'
        rw [hstep]
        rw [dropIter_dropLast n (c :: rest)] at hmain
        exact hmain

/-- Claim C6: walking from the package directory upward, the first
directory read that fails fails the whole call; the first directory
holding at least one license-named regular file yields exactly the joined
paths of all those files; and when the walk reaches the root of the
source tree without success the result is the single empty-path
placeholder with no error.  The hypothesis states that the first `n`
directories of the walk were readable and held no license-named regular
file. -/
theorem findLicenses_walk (rd : ReadDir) (comps : List String) (n : Nat)
    (hn : ∀ j < n, dropIter j comps ≠ [] ∧
      ∃ fis, rd (dropIter j comps) = Except.ok fis ∧
        viableNames (dropIter j comps) fis = []) :
    ((dropIter n comps = [] → findLicenses rd comps = Except.ok [""]) ∧
     (∀ msg, dropIter n comps ≠ [] → rd (dropIter n comps) = Except.error msg →
       findLicenses rd comps = Except.error msg) ∧
     (∀ fis, dropIter n comps ≠ [] → rd (dropIter n comps) = Except.ok fis →
       viableNames (dropIter n comps) fis ≠ [] →
       findLicenses rd comps = Except.ok (viableNames (dropIter n comps) fis))) :=
  findLicensesGo_walk rd n comps.length comps (le_refl _) hn

/-- A concrete two-level directory tree for the locator witness. -/
def rdLocator : ReadDir := fun d =>
  if d = ["a", "b"] then Except.ok [DirEntry.mk "readme" true]
  else if d = ["a"] then
    Except.ok [DirEntry.mk "LICENSE" true, DirEntry.mk "COPYING.txt" false]
  else Except.ok []

theorem findLicenses_walk_witness :
    findLicenses rdLocator ["a", "b"] = Except.ok ["a/LICENSE"] := by
  have hn : ∀ j < 1, dropIter j ["a", "b"] ≠ [] ∧
      ∃ fis, rdLocator (dropIter j ["a", "b"]) = Except.ok fis ∧
        viableNames (dropIter j ["a", "b"]) fis = [] := by
    intro j hj
    have hj0 : j = 0 := by omega
    subst hj0
    exact ⟨by decide, ⟨[DirEntry.mk "readme" true], rfl, rfl⟩⟩
  have h := (findLicenses_walk rdLocator ["a", "b"] 1 hn).2.2
    [DirEntry.mk "LICENSE" true, DirEntry.mk "COPYING.txt" false]
    (by decide) rfl (by decide)
  exact h

/- ## Output shaping (removeVendor, truncateFloat, projectAndLicenses) -/

structure truncLicense where
  Name : String
  Confidence : ℚ
deriving DecidableEq

structure projectAndLicenses where
  Project : String
  Licenses : List truncLicense
  Error : String
deriving DecidableEq

/-- Index of the first occurrence of the substring `/vendor/`, as
`strings.Index` computes it (`none` models `-1`). -/
def idxOfVendor : List Char → Option Nat
  | [] => none
  | c :: cs =>
    if (stripPfx "/vendor/".data (c :: cs)).isSome then some 0
    else (idxOfVendor cs).map (· + 1)

/-- Drop everything up to and including the first `/vendor/`. -/
def removeVendor (s : String) : String :=
  match idxOfVendor s.data with
  | none => s
  | some i => String.mk (s.data.drop (i + 8))

example : removeVendor "a/vendor/x/y" = "x/y" := by decide

example : removeVendor "nothing/here" = "nothing/here" := by decide

example : removeVendor "a/vendor/b/vendor/c" = "b/vendor/c" := by decide

/-- Modelled from the source's `Sprintf %.3f` / `ParseFloat` round trip:
rounding to the nearest thousandth, computed as
`floor(q*1000 + 1/2) / 1000` on the reduced numerator and denominator
(the tie-breaking rule of the decimal formatter is irrelevant for the
proofs below, which stay away from exact half-thousandth ties). -/
def truncateFloat (q : ℚ) : ℚ :=
  mkRat (Int.fdiv (2000 * q.num + q.den) (2 * q.den)) 1000

example : truncateFloat (mkRat 1 3) = mkRat 333 1000 := by decide

/-- The confident license list of one package: each matched template's
title with the raw score; a template with an empty title is skipped.  The
source dereferences `li.Template` without a nil check in this loop, so a
nil template here is a panic, modelled by `none`. -/
def truncLicensesOf : List LicenseInfo → Option (List truncLicense)
  | [] => some []
  | li :: rest =>
    match li.Template with
    | none => none
    | some t =>
      (truncLicensesOf rest).map (fun tls =>
        if t.Title ≠ "" then truncLicense.mk t.Title li.Score :: tls else tls)

/-- Number of license infos carrying no template. -/
def countNilTemplates (lis : List LicenseInfo) : Nat :=
  (lis.filter (fun li => li.Template.isNone)).length

/-- Split the grouped licenses into the confident list and the error
list: entries with an error string keep it; entries all of whose license
infos have no template become a `No license detected` error; the rest
contribute their titled licenses.  `none` models the nil-template panic
of the source's second loop. -/
def licensesToProjectAndLicenses :
    List License → Option (List projectAndLicenses × List projectAndLicenses)
  | [] => some ([], [])
  | l :: rest =>
    match licensesToProjectAndLicenses rest with
    | none => none
    | some (c, e) =>
      if l.Err ≠ "" then
        some (c, projectAndLicenses.mk (removeVendor l.Package) [] l.Err :: e)
      else if l.LicenseInfos.length = countNilTemplates l.LicenseInfos then
        some (c, projectAndLicenses.mk (removeVendor l.Package) [] "No license detected" :: e)
      else
        match truncLicensesOf l.LicenseInfos with
        | none => none
        | some tls => some (projectAndLicenses.mk (removeVendor l.Package) tls "" :: c, e)

/- ## Claim C9: vendor prefix removal -/

theorem stripPfx_isSome_iff {pfx cs : List Char} :
    (stripPfx pfx cs).isSome ↔ ∃ rest, cs = pfx ++ rest := by
  induction pfx generalizing cs with
  | nil => simp [stripPfx]
  | cons p ps ih =>
    cases cs with
    | nil =>
      simp only [stripPfx]
      constructor
      · intro hh; simp at hh
      · rintro ⟨rest, hr⟩; simp at hr
    | cons c cs =>
      by_cases h : c = p
      · subst h
        have hred : stripPfx (c :: ps) (c :: cs) = stripPfx ps cs := by
          simp [stripPfx]
        rw [hred, ih]
        constructor
        · rintro ⟨rest, rfl⟩; exact ⟨rest, rfl⟩
        · rintro ⟨rest, hr⟩
          injection hr with h1 h2
          exact ⟨rest, h2⟩
      · have hred : stripPfx (p :: ps) (c :: cs) = none := by
          simp [stripPfx, h]
        rw [hred]
        constructor
        · intro hh; simp at hh
        · rintro ⟨rest, hr⟩
          injection hr with h1 h2
          exact absurd h1 h

theorem idxOfVendor_none {cs : List Char} (h : idxOfVendor cs = none) :
    ∀ pre rest : List Char, cs ≠ pre ++ "/vendor/".data ++ rest := by
  induction cs with
  | nil =>
    intro pre rest heq
    have := congrArg List.length heq
    simp at this
    omega
  | cons c cs ih =>
    intro pre rest heq
    simp only [idxOfVendor] at h
    by_cases hs : ((stripPfx "/vendor/".data (c :: cs)).isSome : Prop)
    · rw [if_pos hs] at h; exact absurd h (by simp)
    · rw [if_neg hs] at h
      cases pre with
      | nil => exact hs (stripPfx_isSome_iff.2 ⟨rest, by simpa using heq⟩)
      | cons p pre =>
        injection heq with h1 h2
        have hnone : idxOfVendor cs = none := by
          cases hidx : idxOfVendor cs with
          | none => rfl
          | some i => rw [hidx] at h; simp at h
        exact ih hnone pre rest h2

theorem idxOfVendor_some {cs : List Char} {i : Nat} (h : idxOfVendor cs = some i) :
    ∃ pre rest : List Char, cs = pre ++ "/vendor/".data ++ rest ∧ pre.length = i ∧
      ∀ pre' rest' : List Char, cs = pre' ++ "/vendor/".data ++ rest' →
        i ≤ pre'.length := by
  induction cs generalizing i with
  | nil => simp [idxOfVendor] at h
  | cons c cs ih =>
    simp only [idxOfVendor] at h
    by_cases hs : ((stripPfx "/vendor/".data (c :: cs)).isSome : Prop)
    · rw [if_pos hs] at h
      simp only [Option.some.injEq] at h
      subst h
      rcases stripPfx_isSome_iff.1 hs with ⟨rest, hr⟩
      exact ⟨[], rest, by simpa using hr, rfl, fun _ _ _ => Nat.zero_le _⟩
    · rw [if_neg hs] at h
      cases hidx : idxOfVendor cs with
      | none => rw [hidx] at h; simp at h
      | some j =>
        rw [hidx] at h
        simp only [Option.map_some', Option.some.injEq] at h
        subst h
        rcases ih hidx with ⟨pre, rest, heq, hlen, hmin⟩
        refine ⟨c :: pre, rest, by rw [heq]; simp, by simp [hlen], ?_⟩
        intro pre' rest' heq'
        cases pre' with
        | nil => exact absurd (stripPfx_isSome_iff.2 ⟨rest', by simpa using heq'⟩) hs
        | cons p' pre' =>
          injection heq' with h1 h2
          have := hmin pre' rest' h2
          simp only [List.length_cons]
          omega

theorem removeVendor_of_no_vendor (s : String)
    (h : ∀ pre rest : List Char, s.data ≠ pre ++ "/vendor/".data ++ rest) :
    removeVendor s = s := by
  unfold removeVendor
  cases hidx : idxOfVendor s.data with
  | none => rfl
  | some i =>
    rcases idxOfVendor_some hidx with ⟨pre, rest, heq, _, _⟩
    exact absurd heq (h pre rest)

theorem removeVendor_of_first (s : String) (pre rest : List Char)
    (heq : s.data = pre ++ "/vendor/".data ++ rest)
    (hmin : ∀ pre' rest' : List Char, s.data = pre' ++ "/vendor/".data ++ rest' →
      pre.length ≤ pre'.length) :
    removeVendor s = String.mk rest := by
  cases hidx : idxOfVendor s.data with
  | none => exact absurd heq (idxOfVendor_none hidx pre rest)
  | some i =>
    rcases idxOfVendor_some hidx with ⟨pre0, rest0, heq0, hlen0, hmin0⟩
    have h1 := hmin pre0 rest0 heq0
    have h2 := hmin0 pre rest heq
    have hieq : i = pre.length := by omega
    subst hieq
    have hrw : removeVendor s = String.mk (s.data.drop (pre.length + 8)) := by
      unfold removeVendor
      rw [hidx]
    have hassoc : s.data = (pre ++ "/vendor/".data) ++ rest := by
      rw [heq, List.append_assoc]
    have hplen : (pre ++ "/vendor/".data).length = pre.length + 8 := by
      rw [List.length_append]
      have : ("/vendor/".data).length = 8 := rfl
      omega
    rw [hrw, hassoc]
    congr 1
    rw [← hplen]
    exact List.drop_left _ _

theorem output_projects_linkage :
    ∀ (ls : List License) (c e : List projectAndLicenses),
      licensesToProjectAndLicenses ls = some (c, e) →
      ∀ pl ∈ c ++ e, ∃ l ∈ ls, pl.Project = removeVendor l.Package := by
  intro ls
  induction ls with
  | nil =>
    intro c e h
    simp only [licensesToProjectAndLicenses, Option.some.injEq, Prod.mk.injEq] at h
    obtain ⟨hc, he⟩ := h
    subst hc; subst he
    simp
  | cons l rest ih =>
    intro c e h
    simp only [licensesToProjectAndLicenses] at h
    cases hrest : licensesToProjectAndLicenses rest with
    | none => rw [hrest] at h; simp at h
    | some ce =>
      obtain ⟨c0, e0⟩ := ce
      simp only [hrest] at h
      have step : ∀ pl ∈ c0 ++ e0, ∃ l0 ∈ l :: rest, pl.Project = removeVendor l0.Package := by
        intro pl hpl
        rcases ih c0 e0 hrest pl hpl with ⟨l0, hl0, hp⟩
        exact ⟨l0, List.mem_cons.2 (Or.inr hl0), hp⟩
      by_cases herr : l.Err ≠ ""
      · rw [if_pos herr] at h
        simp only [Option.some.injEq, Prod.mk.injEq] at h
        obtain ⟨hc, he⟩ := h
        subst hc; subst he
        intro pl hpl
        rcases List.mem_append.1 hpl with hpl | hpl
        · exact step pl (List.mem_append.2 (Or.inl hpl))
        · rcases List.mem_cons.1 hpl with hpl | hpl
          · subst hpl; exact ⟨l, List.mem_cons.2 (Or.inl rfl), rfl⟩
          · exact step pl (List.mem_append.2 (Or.inr hpl))
      · rw [if_neg herr] at h
        by_cases hnil : l.LicenseInfos.length = countNilTemplates l.LicenseInfos
        · rw [if_pos hnil] at h
          simp only [Option.some.injEq, Prod.mk.injEq] at h
          obtain ⟨hc, he⟩ := h
          subst hc; subst he
          intro pl hpl
          rcases List.mem_append.1 hpl with hpl | hpl
          · exact step pl (List.mem_append.2 (Or.inl hpl))
          · rcases List.mem_cons.1 hpl with hpl | hpl
            · subst hpl; exact ⟨l, List.mem_cons.2 (Or.inl rfl), rfl⟩
            · exact step pl (List.mem_append.2 (Or.inr hpl))
        · rw [if_neg hnil] at h
          cases htl : truncLicensesOf l.LicenseInfos with
          | none => rw [htl] at h; simp at h
          | some tls =>
            rw [htl] at h
            simp only [Option.some.injEq, Prod.mk.injEq] at h
            obtain ⟨hc, he⟩ := h
            subst hc; subst he
            intro pl hpl
            rcases List.mem_append.1 hpl with hpl | hpl
            · rcases List.mem_cons.1 hpl with hpl | hpl
              · subst hpl; exact ⟨l, List.mem_cons.2 (Or.inl rfl), rfl⟩
              · exact step pl (List.mem_append.2 (Or.inl hpl))
            · exact step pl (List.mem_append.2 (Or.inr hpl))

/-- Claim C9: every project name in either output list is the source
entry's package path with everything up to and including the first
occurrence of `/vendor/` removed; paths without `/vendor/` are emitted
unchanged. -/
theorem output_projects_removeVendor (ls : List License)
    (c e : List projectAndLicenses)
    (h : licensesToProjectAndLicenses ls = some (c, e)) :
    (∀ pl ∈ c, ∃ l ∈ ls, pl.Project = removeVendor l.Package) ∧
    (∀ pl ∈ e, ∃ l ∈ ls, pl.Project = removeVendor l.Package) ∧
    (∀ s : String, (∀ pre rest : List Char, s.data ≠ pre ++ "/vendor/".data ++ rest) →
      removeVendor s = s) ∧
    (∀ (s : String) (pre rest : List Char), s.data = pre ++ "/vendor/".data ++ rest →
      (∀ pre' rest' : List Char, s.data = pre' ++ "/vendor/".data ++ rest' →
        pre.length ≤ pre'.length) →
      removeVendor s = String.mk rest) :=
  ⟨fun pl hpl => output_projects_linkage ls c e h pl (List.mem_append.2 (Or.inl hpl)),
   fun pl hpl => output_projects_linkage ls c e h pl (List.mem_append.2 (Or.inr hpl)),
   removeVendor_of_no_vendor, removeVendor_of_first⟩

theorem output_projects_removeVendor_witness :
    (∀ pl ∈ [projectAndLicenses.mk "x" [] "boom"],
      ∃ l ∈ [License.mk "a/vendor/x" [] "boom"], pl.Project = removeVendor l.Package) ∧
    (∀ s : String, (∀ pre rest : List Char, s.data ≠ pre ++ "/vendor/".data ++ rest) →
      removeVendor s = s) ∧
    (∀ (s : String) (pre rest : List Char), s.data = pre ++ "/vendor/".data ++ rest →
      (∀ pre' rest' : List Char, s.data = pre' ++ "/vendor/".data ++ rest' →
        pre.length ≤ pre'.length) →
      removeVendor s = String.mk rest) := by
  have h := output_projects_removeVendor [License.mk "a/vendor/x" [] "boom"]
    [] [projectAndLicenses.mk "x" [] "boom"] (by decide)
  exact ⟨h.2.1, h.2.2.1, h.2.2.2⟩

/- ## Claim C10: empty titles and nil templates -/

/-- The titled licenses of a list of license infos whose templates are all
present: each template title paired with the raw score, empty titles
skipped. -/
def titledOf (lis : List LicenseInfo) : List truncLicense :=
  lis.filterMap (fun li =>
    match li.Template with
    | some t => if t.Title ≠ "" then some (truncLicense.mk t.Title li.Score) else none
    | none => none)

theorem truncLicensesOf_all_some {lis : List LicenseInfo}
    (h : ∀ li ∈ lis, li.Template.isSome) :
    truncLicensesOf lis = some (titledOf lis) := by
  induction lis with
  | nil => rfl
  | cons li rest ih =>
    have hli := h li (List.mem_cons.2 (Or.inl rfl))
    rcases Option.isSome_iff_exists.1 hli with ⟨t, ht⟩
    have hrest := ih (fun li2 h2 => h li2 (List.mem_cons.2 (Or.inr h2)))
    simp only [truncLicensesOf, ht, hrest, Option.map_some']
    simp only [titledOf, List.filterMap_cons, ht]
    by_cases htitle : t.Title ≠ ""
    · rw [if_pos htitle, if_pos htitle]
    · rw [if_neg htitle, if_neg htitle]

theorem countNil_all_none {lis : List LicenseInfo}
    (h : ∀ li ∈ lis, li.Template = none) :
    countNilTemplates lis = lis.length := by
  unfold countNilTemplates
  rw [List.filter_eq_self.2 (fun li hli => by simp [h li hli])]

theorem countNil_all_some {lis : List LicenseInfo}
    (h : ∀ li ∈ lis, li.Template.isSome) :
    countNilTemplates lis = 0 := by
  unfold countNilTemplates
  rw [List.length_eq_zero]
  rw [List.filter_eq_nil_iff]
  intro li hli
  have := h li hli
  simp [Option.isNone_iff_eq_none]
  intro hn
  rw [hn] at this
  simp at this

theorem titledOf_empty_titles {lis : List LicenseInfo}
    (h : ∀ li ∈ lis, li.Template.map Template.Title = some "") :
    titledOf lis = [] := by
  induction lis with
  | nil => rfl
  | cons li rest ih =>
    have hli := h li (List.mem_cons.2 (Or.inl rfl))
    cases ht : li.Template with
    | none => rw [ht] at hli; simp at hli
    | some t =>
      rw [ht] at hli
      simp only [Option.map_some', Option.some.injEq] at hli
      simp only [titledOf, List.filterMap_cons, ht]
      rw [if_neg (by simp [hli])]
      exact ih (fun li2 h2 => h li2 (List.mem_cons.2 (Or.inr h2)))

/-- Claim C10: a package with no error all of whose license infos carry no
template is emitted as a `No license detected` error; a matched license
whose template has an empty title is silently dropped from the confident
license list; a package all of whose matched templates carry empty titles
is emitted as a confident entry with an empty license list, not as an
error. -/
theorem emit_title_behavior (rest : List License) (c e : List projectAndLicenses)
    (hrest : licensesToProjectAndLicenses rest = some (c, e))
    (l₁ l₂ l₃ : License)
    (h₁e : l₁.Err = "") (h₁n : ∀ li ∈ l₁.LicenseInfos, li.Template = none)
    (h₂e : l₂.Err = "") (h₂s : ∀ li ∈ l₂.LicenseInfos, li.Template.isSome)
    (h₂ne : l₂.LicenseInfos ≠ [])
    (h₃e : l₃.Err = "") (h₃t : ∀ li ∈ l₃.LicenseInfos, li.Template.map Template.Title = some "")
    (h₃ne : l₃.LicenseInfos ≠ []) :
    licensesToProjectAndLicenses (l₁ :: rest) =
      some (c, projectAndLicenses.mk (removeVendor l₁.Package) [] "No license detected" :: e) ∧
    licensesToProjectAndLicenses (l₂ :: rest) =
      some (projectAndLicenses.mk (removeVendor l₂.Package) (titledOf l₂.LicenseInfos) "" :: c, e) ∧
    licensesToProjectAndLicenses (l₃ :: rest) =
      some (projectAndLicenses.mk (removeVendor l₃.Package) [] "" :: c, e) := by
  have h₃s : ∀ li ∈ l₃.LicenseInfos, li.Template.isSome := by
    intro li hli
    have := h₃t li hli
    cases ht : li.Template with
    | none => rw [ht] at this; simp at this
    | some t => simp
  refine ⟨?_, ?_, ?_⟩
  · simp only [licensesToProjectAndLicenses, hrest]
    rw [if_neg (by simp [h₁e]), if_pos (countNil_all_none h₁n).symm]
  · simp only [licensesToProjectAndLicenses, hrest]
    rw [if_neg (by simp [h₂e]), if_neg (by
      rw [countNil_all_some h₂s]
      exact fun hl => h₂ne (List.length_eq_zero.1 hl))]
    rw [truncLicensesOf_all_some h₂s]
  · simp only [licensesToProjectAndLicenses, hrest]
    rw [if_neg (by simp [h₃e]), if_neg (by
      rw [countNil_all_some h₃s]
      exact fun hl => h₃ne (List.length_eq_zero.1 hl))]
    rw [truncLicensesOf_all_some h₃s, titledOf_empty_titles h₃t]

theorem emit_title_behavior_witness :
    licensesToProjectAndLicenses
        [License.mk "p1" [LicenseInfo.mk "" 0 none [] []] ""] =
      some ([], [projectAndLicenses.mk "p1" [] "No license detected"]) ∧
    licensesToProjectAndLicenses
        [License.mk "p2" [LicenseInfo.mk "L" (mkRat 1 2) (some (Template.mk "MIT" "" [])) [] [],
          LicenseInfo.mk "L2" 1 (some (Template.mk "" "" [])) [] []] ""] =
      some ([projectAndLicenses.mk "p2"
        (titledOf [LicenseInfo.mk "L" (mkRat 1 2) (some (Template.mk "MIT" "" [])) [] [],
          LicenseInfo.mk "L2" 1 (some (Template.mk "" "" [])) [] []]) ""], []) ∧
    licensesToProjectAndLicenses
        [License.mk "p3" [LicenseInfo.mk "L" 1 (some (Template.mk "" "" [])) [] []] ""] =
      some ([projectAndLicenses.mk "p3" [] ""], []) :=
  emit_title_behavior [] [] [] rfl
    (License.mk "p1" [LicenseInfo.mk "" 0 none [] []] "")
    (License.mk "p2" [LicenseInfo.mk "L" (mkRat 1 2) (some (Template.mk "MIT" "" [])) [] [],
      LicenseInfo.mk "L2" 1 (some (Template.mk "" "" [])) [] []] "")
    (License.mk "p3" [LicenseInfo.mk "L" 1 (some (Template.mk "" "" [])) [] []] "")
    rfl (by decide) rfl (by decide) (by decide) rfl (by decide) (by decide)

/- ## Claim C2: confidences are emitted untruncated -/

/-- Claim C2 evidence: for a license scored `1/3`, the emitted confidence
is the raw score `1/3`; `truncateFloat`, which the claim says is applied,
is defined but never called, and applying it would change the value to
`0.333`. -/
theorem confidence_not_truncated :
    licensesToProjectAndLicenses
        [License.mk "p"
          [LicenseInfo.mk "LICENSE" (mkRat 1 3) (some (Template.mk "MIT" "" [])) [] []] ""] =
      some ([projectAndLicenses.mk "p" [truncLicense.mk "MIT" (mkRat 1 3)] ""], []) ∧
    truncateFloat (mkRat 1 3) ≠ mkRat 1 3 ∧
    truncateFloat (mkRat 1 3) = mkRat 333 1000 := by decide

/- ## Claim C1: override merging (pkgsToLicenses) -/

/-- Set a key in an association list, in place, appending new keys. -/
def assocSet {β : Type} : List (String × β) → String → β → List (String × β)
  | [], k, v => [(k, v)]
  | (k', v') :: rest, k, v =>
    if k' = k then (k, v) :: rest else (k', v') :: assocSet rest k v

/-- Delete a key from an association list. -/
def assocErase {β : Type} : List (String × β) → String → List (String × β)
  | [], _ => []
  | (k', v') :: rest, k => if k' = k then rest else (k', v') :: assocErase rest k

/-- Append one license name under a project key, like the fplm building
loop of pkgsToLicenses does on its Go map. -/
def fplmAppend (m : List (String × List String)) (k v : String) :
    List (String × List String) :=
  match m.lookup k with
  | some l => assocSet m k (l ++ [v])
  | none => m ++ [(k, [v])]

/-- The fplm map of pkgsToLicenses: project name to forced license names,
in insertion order. -/
def buildFplm (pls : List projectAndLicenses) : List (String × List String) :=
  pls.foldl (fun m pl =>
    pl.Licenses.foldl (fun m2 tl => fplmAppend m2 pl.Project tl.Name) m) []

/-- One iteration of the detected-licenses loop of pkgsToLicenses.  The
state is `(pls, tls, fplm)`; `tls` is the slice variable declared outside
the loop in the source and never reset, so it carries over from one
iteration to the next. -/
def mergeDetectedStep
    (acc : List projectAndLicenses × List truncLicense × List (String × List String))
    (pl : projectAndLicenses) :
    List projectAndLicenses × List truncLicense × List (String × List String) :=
  match acc.2.2.lookup pl.Project with
  | some l =>
    let tls2 := acc.2.1 ++ l.map (fun n => truncLicense.mk n 1)
    (acc.1 ++ [projectAndLicenses.mk pl.Project tls2 ""], tls2,
      assocErase acc.2.2 pl.Project)
  | none => (acc.1 ++ [pl], acc.2.1, acc.2.2)

/-- The force-add loop of pkgsToLicenses over the override entries that
matched no detected project; `tls` again accumulates across iterations
(it is reset to nil once, before the loop).  The Go map iteration order
is unspecified; insertion order stands in for it. -/
def mergeForce (fplm : List (String × List String)) : List projectAndLicenses :=
  (fplm.foldl (fun (acc : List projectAndLicenses × List truncLicense) kv =>
    let tls2 := acc.2 ++ kv.2.map (fun n => truncLicense.mk n 1)
    (acc.1 ++ [projectAndLicenses.mk kv.1 tls2 ""], tls2)) ([], [])).1

/-- The merge stage of pkgsToLicenses: given the parsed override entries
and the computed confident and error lists, apply overrides to detected
projects, force-add the unmatched override entries, and keep only the
errors whose project is not in the remaining override map. -/
def pkgsToLicensesMerge (overrides c e : List projectAndLicenses) :
    List projectAndLicenses × List projectAndLicenses :=
  let fplm := buildFplm overrides
  let det := c.foldl mergeDetectedStep ([], [], fplm)
  let pls := det.1 ++ mergeForce det.2.2
  let ne := e.filter (fun pl => (det.2.2.lookup pl.Project).isNone)
  (pls, ne)

/-- Claim C1 evidence: with two override entries both matching detected
projects, the second project's final license list also contains the first
project's forced license name, because the `tls` slice of the source is
declared outside the loop and never reset.  Replacement is therefore not
wholesale per entry: project `p2`, overridden with just `B`, is emitted
with `A` and `B`. -/
theorem override_merge_accumulates :
    pkgsToLicensesMerge
      [projectAndLicenses.mk "p1" [truncLicense.mk "A" 1] "",
       projectAndLicenses.mk "p2" [truncLicense.mk "B" 1] ""]
      [projectAndLicenses.mk "p1" [truncLicense.mk "X" (mkRat 1 2)] "",
       projectAndLicenses.mk "p2" [truncLicense.mk "Y" (mkRat 1 2)] ""]
      [] =
    ([projectAndLicenses.mk "p1" [truncLicense.mk "A" 1] "",
      projectAndLicenses.mk "p2" [truncLicense.mk "A" 1, truncLicense.mk "B" 1] ""],
     []) := by decide

/- ## Claim C5: grouping by license path and longest common prefix -/

/-- Split an import path on slashes, like `strings.Split`; the result is
never empty. -/
def splitSlashGo : List Char → List Char → List String
  | [], cur => [String.mk cur.reverse]
  | c :: cs, cur =>
    if c = '/' then String.mk cur.reverse :: splitSlashGo cs []
    else splitSlashGo cs (c :: cur)

def splitSlash (s : String) : List String := splitSlashGo s.data []

example : splitSlash "a/b/c" = ["a", "b", "c"] := by decide

example : splitSlash "" = [""] := by decide

/-- A node of the prefix tree of `longestCommonPrefix`; the child name of
the source lives in the association key. -/
inductive TrieNode where
  | mk (children : List (String × TrieNode)) (shared : Nat)

def TrieNode.children : TrieNode → List (String × TrieNode)
  | .mk cs _ => cs

def TrieNode.shared : TrieNode → Nat
  | .mk _ sh => sh

/-- Insert one component path: fetch or create the child for the leading
component, increment its `Shared` counter, and descend with the rest. -/
def trieInsert : TrieNode → List String → TrieNode
  | n, [] => n
  | .mk cs sh, part :: rest =>
    let c0 := match cs.lookup part with
      | some c => c
      | none => TrieNode.mk [] 0
    TrieNode.mk
      (assocSet cs part (trieInsert (TrieNode.mk c0.children (c0.shared + 1)) rest)) sh

/-- The prefix tree over the `/`-separated packages of the licenses. -/
def buildTrie (parts : List (List String)) : TrieNode :=
  parts.foldl trieInsert (TrieNode.mk [] parts.length)

/-- Walk single-child chains from the root, collecting the names of
nodes shared by all licenses; structural recursion on a fuel argument
(the caller passes enough, see the lemmas below). -/
def trieWalkGo : Nat → TrieNode → Nat → List String
  | 0, _, _ => []
  | fuel + 1, n, total =>
    match n.children with
    | [(name, c)] => (if c.shared = total then [name] else []) ++ trieWalkGo fuel c total
    | _ => []

/-- Total number of path components, plus slack: enough walk fuel. -/
def sumLen (parts : List (List String)) : Nat :=
  parts.foldl (fun a p => a + p.length) 0

/-- Longest common prefix over import path components of the supplied
licenses: build the prefix tree, then follow single fully-shared
children from the root and join the collected names. -/
def longestCommonPrefix (licenses : List License) : String :=
  let parts := licenses.map (fun l => splitSlash l.Package)
  joinPath (trieWalkGo (sumLen parts + 1) (buildTrie parts) licenses.length)

example : longestCommonPrefix
    [License.mk "a/b/c" [] "", License.mk "a/b/c/d" [] ""] = "a/b/c" := by decide

example : longestCommonPrefix
    [License.mk "a/b/c" [] "", License.mk "a/b/c/d" [] "", License.mk "a/b/c/d/e" [] ""] =
    "a/b/c" := by decide

example : longestCommonPrefix
    [License.mk "a/b" [] "", License.mk "a/b/c/d/f" [] "", License.mk "a/b/c/d/e" [] ""] =
    "a/b" := by decide

example : longestCommonPrefix
    [License.mk "x/y" [] "", License.mk "z/y" [] ""] = "" := by decide

/-- The path buckets of `groupLicenses`: license path to the licenses
claiming it, in encounter order; empty paths are skipped. -/
def buildPaths (licenses : List License) : List (String × List License) :=
  licenses.foldl (fun m l =>
    l.LicenseInfos.foldl (fun m2 li =>
      if li.Path = "" then m2
      else match m2.lookup li.Path with
        | some v => assocSet m2 li.Path (v ++ [l])
        | none => m2 ++ [(li.Path, [l])]) m) []

/-- The conflict check of `groupLicenses`: every path claimed by more
than one license is replaced by the single representative named by the
longest common prefix, and an empty prefix is a hard error. -/
def groupCheck : List (String × List License) → Except String (List (String × List License))
  | [] => Except.ok []
  | (k, v) :: rest =>
    if v.length ≤ 1 then (groupCheck rest).map (fun r => (k, v) :: r)
    else
      let pfx := longestCommonPrefix v
      if pfx = "" then
        Except.error "packages share the same license but not common prefix"
      else
        match v with
        | v0 :: _ => (groupCheck rest).map (fun r =>
            (k, [{ v0 with Package := pfx }]) :: r)
        | [] => (groupCheck rest).map (fun r => (k, v) :: r)

/-- One step of the keep loop of `groupLicenses` for one license info. -/
def keptStep (l : License)
    (acc : List (String × List License) × List String × List License)
    (li : LicenseInfo) :
    List (String × List License) × List String × List License :=
  if li.Path = "" then (acc.1, acc.2.1, acc.2.2 ++ [l])
  else match acc.1.lookup li.Path with
    | some (v0 :: _) =>
      if acc.2.1.contains v0.Package then acc
      else (assocErase acc.1 li.Path, acc.2.1 ++ [v0.Package], acc.2.2 ++ [v0])
    | some [] => acc
    | none => acc

/-- The keep loop of `groupLicenses`: one pass over the original
licenses, emitting each non-grouped entry and the representative of each
surviving bucket at most once. -/
def groupKept (paths0 : List (String × List License)) (licenses : List License) :
    List License :=
  (licenses.foldl (fun acc l =>
    if l.LicenseInfos.isEmpty then (acc.1, acc.2.1, acc.2.2 ++ [l])
    else l.LicenseInfos.foldl (keptStep l) acc) (paths0, [], [])).2.2

/-- Group the licenses by license path: a path claimed by several
packages becomes one entry named by their longest common import path
prefix (an error when that prefix is empty); entries with empty paths
pass through unchanged. -/
def groupLicenses (licenses : List License) : Except String (List License) :=
  match groupCheck (buildPaths licenses) with
  | Except.error e => Except.error e
  | Except.ok paths2 => Except.ok (groupKept paths2 licenses)

deriving instance DecidableEq for Except

example : groupLicenses [License.mk "a/b" [LicenseInfo.mk "a/LICENSE" 1 none [] []] "",
    License.mk "a/c" [LicenseInfo.mk "a/LICENSE" 1 none [] []] ""] =
    Except.ok [License.mk "a" [LicenseInfo.mk "a/LICENSE" 1 none [] []] ""] := by decide

example : (groupLicenses [License.mk "x/b" [LicenseInfo.mk "LICENSE" 1 none [] []] "",
    License.mk "y/c" [LicenseInfo.mk "LICENSE" 1 none [] []] ""]).isOk = false := by decide

/- ## Structure of the prefix tree -/

/-- The children transformation of one insertion; an insert never touches
the node's own shared count. -/
def childUpdate (cs : List (String × TrieNode)) : List String → List (String × TrieNode)
  | [] => cs
  | part :: rest =>
    let c0 := match cs.lookup part with
      | some c => c
      | none => TrieNode.mk [] 0
    assocSet cs part (trieInsert (TrieNode.mk c0.children (c0.shared + 1)) rest)

theorem trieInsert_eq (cs : List (String × TrieNode)) (sh : Nat) (p : List String) :
    trieInsert (TrieNode.mk cs sh) p = TrieNode.mk (childUpdate cs p) sh := by
  cases p <;> rfl

/-- Children after inserting all paths, starting from given children. -/
def CFrom (cs : List (String × TrieNode)) (parts : List (List String)) :
    List (String × TrieNode) :=
  parts.foldl childUpdate cs

theorem fold_trieInsert_eq (parts : List (List String)) :
    ∀ (cs : List (String × TrieNode)) (sh : Nat),
      parts.foldl trieInsert (TrieNode.mk cs sh) = TrieNode.mk (CFrom cs parts) sh := by
  induction parts with
  | nil => intro cs sh; rfl
  | cons p rest ih =>
    intro cs sh
    show rest.foldl trieInsert (trieInsert (TrieNode.mk cs sh) p) = _
    rw [trieInsert_eq, ih]
    rfl

theorem buildTrie_eq (parts : List (List String)) :
    buildTrie parts = TrieNode.mk (CFrom [] parts) parts.length :=
  fold_trieInsert_eq parts [] parts.length

theorem CFrom_append (cs : List (String × TrieNode)) (parts : List (List String))
    (p : List String) : CFrom cs (parts ++ [p]) = childUpdate (CFrom cs parts) p := by
  simp [CFrom, List.foldl_append]

/-- Number of paths starting with component `k`. -/
def headsCount (parts : List (List String)) (k : String) : Nat :=
  (parts.filter (fun p => p.head? = some k)).length

/-- The tails of the paths starting with component `k`. -/
def tailsOf (parts : List (List String)) (k : String) : List (List String) :=
  (parts.filter (fun p => p.head? = some k)).map List.tail

/-- One step of collecting distinct leading components. -/
def dhStep (acc : List String) (p : List String) : List String :=
  match p.head? with
  | some k => if acc.contains k then acc else acc ++ [k]
  | none => acc

/-- The distinct leading components, in first-appearance order. -/
def dedupHeads (parts : List (List String)) : List String :=
  parts.foldl dhStep []

theorem headsCount_le (parts : List (List String)) (k : String) :
    headsCount parts k ≤ parts.length :=
  List.length_filter_le _ _

theorem tailsOf_length (parts : List (List String)) (k : String) :
    (tailsOf parts k).length = headsCount parts k :=
  List.length_map _ _

theorem headsCount_append (parts : List (List String)) (p : List String) (k : String) :
    headsCount (parts ++ [p]) k =
      headsCount parts k + (if p.head? = some k then 1 else 0) := by
  unfold headsCount
  rw [List.filter_append, List.length_append]
  by_cases h : p.head? = some k
  · simp [h]
  · simp [h]

theorem tailsOf_append (parts : List (List String)) (p : List String) (k : String) :
    tailsOf (parts ++ [p]) k =
      tailsOf parts k ++ (if p.head? = some k then [p.tail] else []) := by
  unfold tailsOf
  rw [List.filter_append, List.map_append]
  by_cases h : p.head? = some k
  · simp [h]
  · simp [h]

theorem dedupHeads_append (parts : List (List String)) (p : List String) :
    dedupHeads (parts ++ [p]) = dhStep (dedupHeads parts) p := by
  unfold dedupHeads
  rw [List.foldl_append]
  rfl

theorem mem_dedupHeads_aux (parts : List (List String)) :
    ∀ (acc : List String) (x : String),
      x ∈ parts.foldl dhStep acc ↔ x ∈ acc ∨ ∃ p ∈ parts, p.head? = some x := by
  induction parts with
  | nil => intro acc x; simp
  | cons p rest ih =>
    intro acc x
    show x ∈ rest.foldl dhStep (dhStep acc p) ↔ _
    cases hp : p.head? with
    | none =>
      rw [show dhStep acc p = acc from by simp [dhStep, hp], ih]
      constructor
      · rintro (h | ⟨q, hq, hqh⟩)
        · exact Or.inl h
        · exact Or.inr ⟨q, List.mem_cons.2 (Or.inr hq), hqh⟩
      · rintro (h | ⟨q, hq, hqh⟩)
        · exact Or.inl h
        · rcases List.mem_cons.1 hq with rfl | hq2
          · rw [hp] at hqh; simp at hqh
          · exact Or.inr ⟨q, hq2, hqh⟩
    | some k =>
      by_cases hc : ((acc.contains k : Bool) : Prop)
      · rw [show dhStep acc p = acc from by
            simp only [dhStep, hp]
            rw [if_pos hc], ih]
        have hkacc : k ∈ acc := by simpa using hc
        constructor
        · rintro (h | ⟨q, hq, hqh⟩)
          · exact Or.inl h
          · exact Or.inr ⟨q, List.mem_cons.2 (Or.inr hq), hqh⟩
        · rintro (h | ⟨q, hq, hqh⟩)
          · exact Or.inl h
          · rcases List.mem_cons.1 hq with rfl | hq2
            · rw [hp] at hqh
              simp only [Option.some.injEq] at hqh
              subst hqh
              exact Or.inl hkacc
            · exact Or.inr ⟨q, hq2, hqh⟩
      · rw [show dhStep acc p = acc ++ [k] from by
            simp only [dhStep, hp]
            rw [if_neg hc], ih]
        constructor
        · rintro (h | ⟨q, hq, hqh⟩)
          · rcases List.mem_append.1 h with h2 | h2
            · exact Or.inl h2
            · simp only [List.mem_singleton] at h2
              subst h2
              exact Or.inr ⟨p, List.mem_cons.2 (Or.inl rfl), hp⟩
          · exact Or.inr ⟨q, List.mem_cons.2 (Or.inr hq), hqh⟩
        · rintro (h | ⟨q, hq, hqh⟩)
          · exact Or.inl (List.mem_append.2 (Or.inl h))
          · rcases List.mem_cons.1 hq with rfl | hq2
            · rw [hp] at hqh
              simp only [Option.some.injEq] at hqh
              subst hqh
              exact Or.inl (List.mem_append.2 (Or.inr (by simp)))
            · exact Or.inr ⟨q, hq2, hqh⟩

theorem mem_dedupHeads (parts : List (List String)) (x : String) :
    x ∈ dedupHeads parts ↔ ∃ p ∈ parts, p.head? = some x := by
  rw [dedupHeads, mem_dedupHeads_aux]
  simp

theorem dedupHeads_nodup_aux (parts : List (List String)) :
    ∀ acc : List String, acc.Nodup → (parts.foldl dhStep acc).Nodup := by
  induction parts with
  | nil => intro acc h; exact h
  | cons p rest ih =>
    intro acc h
    show (rest.foldl dhStep (dhStep acc p)).Nodup
    cases hp : p.head? with
    | none => rw [show dhStep acc p = acc from by simp [dhStep, hp]]; exact ih acc h
    | some k =>
      by_cases hc : ((acc.contains k : Bool) : Prop)
      · rw [show dhStep acc p = acc from by
          simp only [dhStep, hp]
          rw [if_pos hc]]
        exact ih acc h
      · rw [show dhStep acc p = acc ++ [k] from by
          simp only [dhStep, hp]
          rw [if_neg hc]]
        refine ih _ ?_
        rw [List.nodup_append]
        refine ⟨h, List.nodup_singleton k, ?_⟩
        intro a ha hb
        simp only [List.mem_singleton] at hb
        subst hb
        exact hc (by simpa using ha)

theorem dedupHeads_nodup (parts : List (List String)) : (dedupHeads parts).Nodup :=
  dedupHeads_nodup_aux parts [] List.nodup_nil

theorem lookup_map_keys {β : Type} (keys : List String) (g : String → β) (k : String) :
    ((keys.map (fun x => (x, g x))).lookup k) =
      if k ∈ keys then some (g k) else none := by
  induction keys with
  | nil => simp
  | cons a keys ih =>
    by_cases h : k = a
    · subst h
      simp [List.lookup]
    · have hb : (k == a) = false := by simp [h]
      simp [List.lookup, hb, ih, h]

theorem assocSet_map_keys {β : Type} (keys : List String) (g : String → β) (k : String)
    (v : β) (hk : k ∈ keys) (hnd : keys.Nodup) :
    assocSet (keys.map (fun x => (x, g x))) k v =
      keys.map (fun x => (x, if x = k then v else g x)) := by
  induction keys with
  | nil => simp at hk
  | cons a keys ih =>
    rw [List.nodup_cons] at hnd
    simp only [List.map_cons, assocSet]
    by_cases h : a = k
    · subst h
      rw [if_pos rfl, if_pos rfl]
      congr 1
      apply List.map_congr_left
      intro x hx
      rw [if_neg (show ¬x = a from fun he => hnd.1 (he ▸ hx))]
    · rw [if_neg h, if_neg h]
      rcases List.mem_cons.1 hk with hk1 | hk1
      · exact absurd hk1.symm h
      · rw [ih hk1 hnd.2]

theorem assocSet_not_mem {β : Type} (m : List (String × β)) (k : String) (v : β)
    (h : ∀ kv ∈ m, kv.1 ≠ k) : assocSet m k v = m ++ [(k, v)] := by
  induction m with
  | nil => rfl
  | cons kv m ih =>
    obtain ⟨k', v'⟩ := kv
    simp only [assocSet]
    rw [if_neg (h (k', v') (List.mem_cons.2 (Or.inl rfl)))]
    rw [ih (fun kv2 h2 => h kv2 (List.mem_cons.2 (Or.inr h2)))]
    rfl

theorem headsCount_eq_zero (parts : List (List String)) (k : String)
    (h : k ∉ dedupHeads parts) : headsCount parts k = 0 := by
  unfold headsCount
  rw [List.length_eq_zero, List.filter_eq_nil_iff]
  intro p hp
  simp only [decide_eq_true_eq]
  intro hph
  exact h ((mem_dedupHeads parts k).2 ⟨p, hp, hph⟩)

theorem tailsOf_eq_nil (parts : List (List String)) (k : String)
    (h : k ∉ dedupHeads parts) : tailsOf parts k = [] := by
  unfold tailsOf
  rw [List.map_eq_nil_iff, List.filter_eq_nil_iff]
  intro p hp
  simp only [decide_eq_true_eq]
  intro hph
  exact h ((mem_dedupHeads parts k).2 ⟨p, hp, hph⟩)

/-- Structure of the built prefix tree: its children are, in
first-appearance order, one child per distinct leading component, holding
the subtree of the corresponding path tails and the count of paths
through it. -/
theorem CFrom_characterization (parts : List (List String)) :
    CFrom [] parts = (dedupHeads parts).map
      (fun k => (k, TrieNode.mk (CFrom [] (tailsOf parts k)) (headsCount parts k))) := by
  induction parts using List.reverseRecOn with
  | nil => rfl
  | append_singleton parts p ih =>
    rw [CFrom_append, ih, dedupHeads_append]
    cases p with
    | nil =>
      rw [show childUpdate ((dedupHeads parts).map
          (fun k => (k, TrieNode.mk (CFrom [] (tailsOf parts k)) (headsCount parts k)))) [] =
          (dedupHeads parts).map
          (fun k => (k, TrieNode.mk (CFrom [] (tailsOf parts k)) (headsCount parts k)))
        from rfl]
      rw [show dhStep (dedupHeads parts) [] = dedupHeads parts from rfl]
      apply List.map_congr_left
      intro k hk
      rw [tailsOf_append, headsCount_append]
      simp
    | cons a as =>
      have hp : (a :: as).head? = some a := rfl
      by_cases hmem : a ∈ dedupHeads parts
      · have hlk : (((dedupHeads parts).map
            (fun k => (k, TrieNode.mk (CFrom [] (tailsOf parts k))
              (headsCount parts k)))).lookup a) =
            some (TrieNode.mk (CFrom [] (tailsOf parts a)) (headsCount parts a)) := by
          rw [lookup_map_keys, if_pos hmem]
        simp only [childUpdate, hlk, TrieNode.children, TrieNode.shared]
        rw [trieInsert_eq]
        rw [show childUpdate (CFrom [] (tailsOf parts a)) as =
            CFrom [] (tailsOf parts a ++ [as]) from (CFrom_append [] _ as).symm]
        rw [assocSet_map_keys _ _ _ _ hmem (dedupHeads_nodup parts)]
        have hcontains : (dedupHeads parts).contains a = true := by simpa using hmem
        rw [show dhStep (dedupHeads parts) (a :: as) = dedupHeads parts from by
          simp only [dhStep, hp]
          rw [if_pos hcontains]]
        apply List.map_congr_left
        intro x hx
        by_cases hxa : x = a
        · subst hxa
          rw [if_pos rfl, tailsOf_append, headsCount_append]
          simp [hp]
        · have hax2 : ¬a = x := fun h => hxa h.symm
          rw [if_neg hxa, tailsOf_append, headsCount_append]
          simp [hax2]
      · have hlk : (((dedupHeads parts).map
            (fun k => (k, TrieNode.mk (CFrom [] (tailsOf parts k))
              (headsCount parts k)))).lookup a) = none := by
          rw [lookup_map_keys, if_neg hmem]
        simp only [childUpdate, hlk, TrieNode.children, TrieNode.shared]
        rw [trieInsert_eq]
        rw [assocSet_not_mem _ _ _ (by
          intro kv hkv
          rcases List.mem_map.1 hkv with ⟨x, hx, rfl⟩
          exact fun he => hmem (he ▸ hx))]
        rw [show dhStep (dedupHeads parts) (a :: as) = dedupHeads parts ++ [a] from by
          simp only [dhStep, hp]
          rw [if_neg (by simp [hmem])]]
        rw [List.map_append]
        congr 1
        · apply List.map_congr_left
          intro x hx
          have hax2 : ¬a = x := fun h => hmem (h ▸ hx)
          rw [tailsOf_append, headsCount_append]
          simp [hax2]
        · simp only [List.map_cons, List.map_nil]
          rw [tailsOf_append, headsCount_append]
          rw [tailsOf_eq_nil parts a hmem, headsCount_eq_zero parts a hmem]
          simp [hp]
          rfl

theorem sumLen_cons (p : List String) (rest : List (List String)) :
    sumLen (p :: rest) = p.length + sumLen rest := by
  have haux : ∀ (l : List (List String)) (init : Nat),
      l.foldl (fun a q => a + q.length) init = init + l.foldl (fun a q => a + q.length) 0 := by
    intro l
    induction l with
    | nil => intro init; simp
    | cons q rest ih =>
      intro init
      show rest.foldl _ (init + q.length) = init + rest.foldl _ (0 + q.length)
      rw [ih (init + q.length), ih (0 + q.length)]
      omega
  show (p :: rest).foldl (fun a q => a + q.length) 0 = _
  show rest.foldl (fun a q => a + q.length) (0 + p.length) = _
  rw [haux rest (0 + p.length)]
  unfold sumLen
  omega

theorem length_le_sumLen {parts : List (List String)} {p : List String}
    (h : p ∈ parts) : p.length ≤ sumLen parts := by
  induction parts with
  | nil => simp at h
  | cons q rest ih =>
    rw [sumLen_cons]
    rcases List.mem_cons.1 h with rfl | h2
    · omega
    · have := ih h2
      omega

theorem filter_all_of_length_eq {α : Type} (f : α → Bool) :
    ∀ l : List α, (l.filter f).length = l.length → ∀ x ∈ l, f x = true := by
  intro l
  induction l with
  | nil => intro _ x hx; simp at hx
  | cons a rest ih =>
    intro hlen x hx
    by_cases hfa : f a = true
    · rw [List.filter_cons_of_pos hfa] at hlen
      simp only [List.length_cons] at hlen
      rcases List.mem_cons.1 hx with rfl | hx2
      · exact hfa
      · exact ih (by omega) x hx2
    · rw [List.filter_cons_of_neg (by simpa using hfa)] at hlen
      have := List.length_filter_le f rest
      simp only [List.length_cons] at hlen
      omega

theorem sumLen_tails (parts : List (List String)) (k : String)
    (hall : ∀ q ∈ parts, q.head? = some k) :
    sumLen (tailsOf parts k) + parts.length = sumLen parts := by
  unfold tailsOf
  rw [List.filter_eq_self.2 (fun q hq => by simp [hall q hq])]
  induction parts with
  | nil => rfl
  | cons q rest ih =>
    have hq : q.head? = some k := hall q (List.mem_cons.2 (Or.inl rfl))
    have hqne : q ≠ [] := by intro hnil; rw [hnil] at hq; simp at hq
    simp only [List.map_cons, List.length_cons]
    rw [sumLen_cons, sumLen_cons]
    have htail : q.tail.length + 1 = q.length := by
      cases q with
      | nil => exact absurd rfl hqne
      | cons a as => simp
    have hrest := ih (fun q2 h2 => hall q2 (List.mem_cons.2 (Or.inr h2)))
    omega

/-- A walk demanding a share count larger than the number of inserted
paths collects nothing. -/
theorem trieWalkGo_empty (fuel : Nat) :
    ∀ (parts : List (List String)) (sh total : Nat), parts.length < total →
      trieWalkGo fuel (TrieNode.mk (CFrom [] parts) sh) total = [] := by
  induction fuel with
  | zero => intro parts sh total _; rfl
  | succ fuel ih =>
    intro parts sh total h
    show (match (TrieNode.mk (CFrom [] parts) sh).children with
      | [(name, c)] => (if c.shared = total then [name] else []) ++ trieWalkGo fuel c total
      | _ => []) = []
    rw [show (TrieNode.mk (CFrom [] parts) sh).children = CFrom [] parts from rfl]
    rw [CFrom_characterization]
    cases hd : dedupHeads parts with
    | nil => rfl
    | cons k keys =>
      cases keys with
      | nil =>
        simp only [List.map_cons, List.map_nil]
        have hcnt : headsCount parts k ≤ parts.length := headsCount_le parts k
        show (if (TrieNode.mk (CFrom [] (tailsOf parts k)) (headsCount parts k)).shared = total
            then [k] else []) ++
          trieWalkGo fuel (TrieNode.mk (CFrom [] (tailsOf parts k)) (headsCount parts k))
            total = []
        rw [show (TrieNode.mk (CFrom [] (tailsOf parts k)) (headsCount parts k)).shared =
          headsCount parts k from rfl]
        rw [if_neg (by omega)]
        rw [ih (tailsOf parts k) _ total (by rw [tailsOf_length]; omega)]
        rfl
      | cons k2 keys2 => rfl

/-- The walk result is a common component prefix of every inserted path. -/
theorem trieWalk_prefix (N : Nat) :
    ∀ (parts : List (List String)) (fuel sh total : Nat),
      sumLen parts ≤ N → total = parts.length → sumLen parts < fuel →
      ∀ p ∈ parts,
        trieWalkGo fuel (TrieNode.mk (CFrom [] parts) sh) total <+: p := by
  induction N with
  | zero =>
    intro parts fuel sh total h0 htot hfuel p hp
    have hplen : p.length = 0 := by
      have := length_le_sumLen hp
      omega
    have hpnil : p = [] := List.length_eq_zero.1 hplen
    subst hpnil
    have : trieWalkGo fuel (TrieNode.mk (CFrom [] parts) sh) total <+: [] ∨ True := Or.inr trivial
    -- every path is empty, so the walk yields nothing; but prefix-of-[] needs the walk to be []
    have hd : dedupHeads parts = [] := by
      rw [List.eq_nil_iff_forall_not_mem]
      intro x hx
      rcases (mem_dedupHeads parts x).1 hx with ⟨q, hq, hqh⟩
      have : q.length = 0 := by
        have := length_le_sumLen hq
        omega
      rw [List.length_eq_zero.1 this] at hqh
      simp at hqh
    match fuel, hfuel with
    | f + 1, _ =>
      show (match (TrieNode.mk (CFrom [] parts) sh).children with
        | [(name, c)] => (if c.shared = total then [name] else []) ++ trieWalkGo f c total
        | _ => []) <+: []
      rw [show (TrieNode.mk (CFrom [] parts) sh).children = CFrom [] parts from rfl]
      rw [CFrom_characterization, hd]
      exact List.nil_prefix
  | succ N ih =>
    intro parts fuel sh total h0 htot hfuel p hp
    match fuel, hfuel with
    | f + 1, _ =>
      show (match (TrieNode.mk (CFrom [] parts) sh).children with
        | [(name, c)] => (if c.shared = total then [name] else []) ++ trieWalkGo f c total
        | _ => []) <+: p
      rw [show (TrieNode.mk (CFrom [] parts) sh).children = CFrom [] parts from rfl]
      rw [CFrom_characterization]
      cases hd : dedupHeads parts with
      | nil => exact List.nil_prefix
      | cons k keys =>
        cases keys with
        | cons k2 keys2 => exact List.nil_prefix
        | nil =>
          simp only [List.map_cons, List.map_nil]
          show ((if (TrieNode.mk (CFrom [] (tailsOf parts k)) (headsCount parts k)).shared = total
              then [k] else []) ++
            trieWalkGo f (TrieNode.mk (CFrom [] (tailsOf parts k)) (headsCount parts k))
              total) <+: p
          rw [show (TrieNode.mk (CFrom [] (tailsOf parts k)) (headsCount parts k)).shared =
            headsCount parts k from rfl]
          by_cases hsh : headsCount parts k = total
          · rw [if_pos hsh]
            have hcntlen : headsCount parts k = parts.length := by omega
            have hallhead : ∀ q ∈ parts, q.head? = some k := by
              intro q hq
              have hcnt2 : (parts.filter (fun p2 => p2.head? = some k)).length =
                  parts.length := hcntlen
              have := filter_all_of_length_eq (fun p2 => p2.head? = some k) parts hcnt2 q hq
              simpa using this
            have hphead : p.head? = some k := hallhead p hp
            have hpform : p = k :: p.tail := by
              cases p with
              | nil => simp at hphead
              | cons a as =>
                simp only [List.head?_cons, Option.some.injEq] at hphead
                rw [hphead]
                rfl
            have hpne : parts ≠ [] := fun hnil => by rw [hnil] at hp; simp at hp
            have hlenpos : 0 < parts.length := List.length_pos.2 hpne
            have hsum := sumLen_tails parts k hallhead
            have htails_len : (tailsOf parts k).length = parts.length := by
              rw [tailsOf_length]
              omega
            have hptail : p.tail ∈ tailsOf parts k := by
              unfold tailsOf
              exact List.mem_map.2 ⟨p, List.mem_filter.2 ⟨hp, by simp [hphead]⟩, rfl⟩
            have hW := ih (tailsOf parts k) f (headsCount parts k) total
              (by omega) (by omega) (by omega) p.tail hptail
            rw [hpform]
            exact (List.cons_prefix_cons).2 ⟨rfl, hW⟩
          · rw [if_neg hsh]
            have hcnt : headsCount parts k ≤ parts.length := headsCount_le parts k
            rw [trieWalkGo_empty f (tailsOf parts k) _ total (by
              rw [tailsOf_length]
              omega)]
            exact List.nil_prefix

theorem lookupS_mem {β : Type} {m : List (String × β)} {k : String} {v : β}
    (h : m.lookup k = some v) : (k, v) ∈ m := by
  induction m with
  | nil => simp [List.lookup] at h
  | cons kv m ih =>
    obtain ⟨k2, v2⟩ := kv
    by_cases he : k = k2
    · subst he
      simp [List.lookup] at h
      subst h
      exact List.mem_cons_self _ _
    · have hb : (k == k2) = false := by simp [he]
      simp only [List.lookup, hb] at h
      exact List.mem_cons.2 (Or.inr (ih h))

theorem assocSet_mem {β : Type} :
    ∀ (m : List (String × β)) (k : String) (v : β) (kv : String × β),
      kv ∈ assocSet m k v → kv ∈ m ∨ kv = (k, v) := by
  intro m
  induction m with
  | nil =>
    intro k v kv h
    simp only [assocSet, List.mem_singleton] at h
    exact Or.inr h
  | cons kv0 m ih =>
    intro k v kv h
    obtain ⟨k0, v0⟩ := kv0
    simp only [assocSet] at h
    by_cases he : k0 = k
    · rw [if_pos he] at h
      rcases List.mem_cons.1 h with h1 | h1
      · exact Or.inr h1
      · exact Or.inl (List.mem_cons.2 (Or.inr h1))
    · rw [if_neg he] at h
      rcases List.mem_cons.1 h with h1 | h1
      · exact Or.inl (List.mem_cons.2 (Or.inl h1))
      · rcases ih k v kv h1 with h2 | h2
        · exact Or.inl (List.mem_cons.2 (Or.inr h2))
        · exact Or.inr h2

theorem assocErase_sublist {β : Type} :
    ∀ (m : List (String × β)) (k : String), (assocErase m k).Sublist m := by
  intro m
  induction m with
  | nil => intro k; simp [assocErase]
  | cons kv m ih =>
    intro k
    obtain ⟨k0, v0⟩ := kv
    simp only [assocErase]
    by_cases he : k0 = k
    · rw [if_pos he]
      exact List.sublist_cons_self _ _
    · rw [if_neg he]
      exact List.Sublist.cons₂ _ (ih k)

/-- Invariant of the path buckets: keys are non-empty paths and every
bucket member is an input license claiming that path. -/
def goodBuckets (ls : List License) (m : List (String × List License)) : Prop :=
  ∀ kv ∈ m, kv.1 ≠ "" ∧ ∀ l ∈ kv.2, l ∈ ls ∧ ∃ li ∈ l.LicenseInfos, li.Path = kv.1

theorem buildPaths_inner (ls : List License) (l : License) (hl : l ∈ ls) :
    ∀ (lis : List LicenseInfo) (m : List (String × List License)),
      (∀ li ∈ lis, li ∈ l.LicenseInfos) → goodBuckets ls m →
      goodBuckets ls (lis.foldl (fun m2 li =>
        if li.Path = "" then m2
        else match m2.lookup li.Path with
          | some v => assocSet m2 li.Path (v ++ [l])
          | none => m2 ++ [(li.Path, [l])]) m) := by
  intro lis
  induction lis with
  | nil => intro m _ hm; exact hm
  | cons li rest ih =>
    intro m hin hm
    refine ih _ (fun x hx => hin x (List.mem_cons.2 (Or.inr hx))) ?_
    dsimp only
    by_cases hp : li.Path = ""
    · rw [if_pos hp]; exact hm
    · rw [if_neg hp]
      cases hlk : m.lookup li.Path with
      | some v =>
        intro kv hkv
        rcases assocSet_mem m li.Path (v ++ [l]) kv hkv with h1 | h1
        · exact hm kv h1
        · subst h1
          refine ⟨hp, ?_⟩
          intro x hx
          rcases List.mem_append.1 hx with hx1 | hx1
          · exact (hm (li.Path, v) (lookupS_mem hlk)).2 x hx1
          · simp only [List.mem_singleton] at hx1
            subst hx1
            exact ⟨hl, li, hin li (List.mem_cons.2 (Or.inl rfl)), rfl⟩
      | none =>
        intro kv hkv
        rcases List.mem_append.1 hkv with h1 | h1
        · exact hm kv h1
        · simp only [List.mem_singleton] at h1
          subst h1
          exact ⟨hp, fun x hx => by
            simp only [List.mem_singleton] at hx
            subst hx
            exact ⟨hl, li, hin li (List.mem_cons.2 (Or.inl rfl)), rfl⟩⟩

theorem buildPaths_good (ls : List License) : goodBuckets ls (buildPaths ls) := by
  unfold buildPaths
  have haux : ∀ (sub : List License) (m : List (String × List License)),
      (∀ l ∈ sub, l ∈ ls) → goodBuckets ls m →
      goodBuckets ls (sub.foldl (fun m l =>
        l.LicenseInfos.foldl (fun m2 li =>
          if li.Path = "" then m2
          else match m2.lookup li.Path with
            | some v => assocSet m2 li.Path (v ++ [l])
            | none => m2 ++ [(li.Path, [l])]) m) m) := by
    intro sub
    induction sub with
    | nil => intro m _ hm; exact hm
    | cons l rest ih =>
      intro m hin hm
      refine ih _ (fun x hx => hin x (List.mem_cons.2 (Or.inr hx))) ?_
      exact buildPaths_inner ls l (hin l (List.mem_cons.2 (Or.inl rfl)))
        l.LicenseInfos m (fun _ hx => hx) hm
  exact haux ls [] (fun _ hx => hx) (fun kv hkv => by simp at hkv)

theorem longestCommonPrefix_spec (v : List License) :
    ∃ W : List String, longestCommonPrefix v = joinPath W ∧
      ∀ m ∈ v, W <+: splitSlash m.Package := by
  refine ⟨trieWalkGo (sumLen (v.map fun l => splitSlash l.Package) + 1)
    (buildTrie (v.map fun l => splitSlash l.Package)) v.length, ?_, ?_⟩
  · rfl
  intro m hm
  have hmem : splitSlash m.Package ∈ (v.map fun l => splitSlash l.Package) :=
    List.mem_map.2 ⟨m, hm, rfl⟩
  have h := trieWalk_prefix (sumLen (v.map fun l => splitSlash l.Package))
    (v.map fun l => splitSlash l.Package)
    (sumLen (v.map fun l => splitSlash l.Package) + 1)
    (v.map fun l => splitSlash l.Package).length v.length
    (le_refl _) (by simp) (by omega) (splitSlash m.Package) hmem
  rw [buildTrie_eq]
  rw [show (v.map fun l => splitSlash l.Package).length = v.length from by simp] at h
  exact h

theorem groupCheck_error :
    ∀ (m : List (String × List License)),
      (∃ kv ∈ m, 2 ≤ kv.2.length ∧ longestCommonPrefix kv.2 = "") →
      ∃ msg, groupCheck m = Except.error msg := by
  intro m
  induction m with
  | nil => rintro ⟨kv, hkv, _⟩; simp at hkv
  | cons kv0 rest ih =>
    rintro ⟨kv, hkv, h2, h3⟩
    obtain ⟨k, v⟩ := kv0
    rcases List.mem_cons.1 hkv with rfl | hmem
    · dsimp only at h2 h3
      refine ⟨"packages share the same license but not common prefix", ?_⟩
      simp only [groupCheck]
      rw [if_neg (by omega), if_pos h3]
    · obtain ⟨msg, herr⟩ := ih ⟨kv, hmem, h2, h3⟩
      simp only [groupCheck, herr]
      by_cases hlen : v.length ≤ 1
      · rw [if_pos hlen]
        exact ⟨msg, rfl⟩
      · rw [if_neg hlen]
        by_cases hpfx : longestCommonPrefix v = ""
        · rw [if_pos hpfx]
          exact ⟨"packages share the same license but not common prefix", rfl⟩
        · rw [if_neg hpfx]
          cases v with
          | nil => exact ⟨msg, rfl⟩
          | cons v0 vr => exact ⟨msg, rfl⟩

theorem groupCheck_ok :
    ∀ (m m2 : List (String × List License)), groupCheck m = Except.ok m2 →
      ∀ kv2 ∈ m2, ∃ kv ∈ m, kv2.1 = kv.1 ∧
        (kv2.2 = kv.2 ∨
          (2 ≤ kv.2.length ∧ longestCommonPrefix kv.2 ≠ "" ∧
            ∃ v0 vr, kv.2 = v0 :: vr ∧
              kv2.2 = [{ v0 with Package := longestCommonPrefix kv.2 }])) := by
  intro m
  induction m with
  | nil =>
    intro m2 h kv2 hkv2
    simp only [groupCheck, Except.ok.injEq] at h
    subst h
    simp at hkv2
  | cons kv0 rest ih =>
    intro m2 h kv2 hkv2
    obtain ⟨k, v⟩ := kv0
    simp only [groupCheck] at h
    by_cases hlen : v.length ≤ 1
    · rw [if_pos hlen] at h
      cases hr : groupCheck rest with
      | error e => rw [hr] at h; simp [Except.map] at h
      | ok r =>
        rw [hr] at h
        simp only [Except.map, Except.ok.injEq] at h
        subst h
        rcases List.mem_cons.1 hkv2 with rfl | hmem
        · exact ⟨(k, v), List.mem_cons.2 (Or.inl rfl), rfl, Or.inl rfl⟩
        · obtain ⟨kv, hkv, hfst, hsnd⟩ := ih r hr kv2 hmem
          exact ⟨kv, List.mem_cons.2 (Or.inr hkv), hfst, hsnd⟩
    · rw [if_neg hlen] at h
      by_cases hpfx : longestCommonPrefix v = ""
      · rw [if_pos hpfx] at h
        simp at h
      · rw [if_neg hpfx] at h
        cases v with
        | nil => simp at hlen
        | cons v0 vr =>
          cases hr : groupCheck rest with
          | error e => rw [hr] at h; simp [Except.map] at h
          | ok r =>
            rw [hr] at h
            simp only [Except.map, Except.ok.injEq] at h
            subst h
            rcases List.mem_cons.1 hkv2 with rfl | hmem
            · refine ⟨(k, v0 :: vr), List.mem_cons.2 (Or.inl rfl), rfl,
                Or.inr ⟨?_, hpfx, v0, vr, rfl, rfl⟩⟩
              dsimp only
              simp only [List.length_cons] at hlen ⊢
              omega
            · obtain ⟨kv, hkv, hfst, hsnd⟩ := ih r hr kv2 hmem
              exact ⟨kv, List.mem_cons.2 (Or.inr hkv), hfst, hsnd⟩

/-- Invariant of the keep loop: every kept entry is an input license or
the head of a bucket of the checked path map. -/
def goodKept (ls : List License) (paths2 : List (String × List License))
    (st : List (String × List License) × List String × List License) : Prop :=
  st.1.Sublist paths2 ∧
  ∀ x ∈ st.2.2, x ∈ ls ∨ ∃ kv ∈ paths2, ∃ vr, kv.2 = x :: vr

theorem keptStep_good (ls : List License) (paths2 : List (String × List License))
    (l : License) (hl : l ∈ ls) :
    ∀ (st : List (String × List License) × List String × List License)
      (li : LicenseInfo), goodKept ls paths2 st →
      goodKept ls paths2 (keptStep l st li) := by
  intro st li hst
  obtain ⟨hsub, hkept⟩ := hst
  unfold keptStep
  by_cases hp : li.Path = ""
  · rw [if_pos hp]
    refine ⟨hsub, ?_⟩
    intro x hx
    rcases List.mem_append.1 hx with h1 | h1
    · exact hkept x h1
    · simp only [List.mem_singleton] at h1
      subst h1
      exact Or.inl hl
  · rw [if_neg hp]
    cases hlk : st.1.lookup li.Path with
    | none => exact ⟨hsub, hkept⟩
    | some v =>
      cases v with
      | nil => exact ⟨hsub, hkept⟩
      | cons v0 vr =>
        dsimp only
        by_cases hseen : ((st.2.1.contains v0.Package : Bool) : Prop)
        · rw [if_pos hseen]
          exact ⟨hsub, hkept⟩
        · rw [if_neg hseen]
          refine ⟨(assocErase_sublist st.1 li.Path).trans hsub, ?_⟩
          intro x hx
          rcases List.mem_append.1 hx with h1 | h1
          · exact hkept x h1
          · simp only [List.mem_singleton] at h1
            subst h1
            exact Or.inr ⟨(li.Path, x :: vr), hsub.mem (lookupS_mem hlk), vr, rfl⟩

theorem keptFold_good (ls : List License) (paths2 : List (String × List License))
    (l : License) (hl : l ∈ ls) :
    ∀ (lis : List LicenseInfo)
      (st : List (String × List License) × List String × List License),
      goodKept ls paths2 st → goodKept ls paths2 (lis.foldl (keptStep l) st) := by
  intro lis
  induction lis with
  | nil => intro st hst; exact hst
  | cons li lrest lih =>
    intro st hst
    exact lih _ (keptStep_good ls paths2 l hl st li hst)

theorem groupKept_mem (paths2 : List (String × List License)) (ls : List License) :
    ∀ x ∈ groupKept paths2 ls, x ∈ ls ∨ ∃ kv ∈ paths2, ∃ vr, kv.2 = x :: vr := by
  unfold groupKept
  have haux : ∀ (sub : List License)
      (st : List (String × List License) × List String × List License),
      (∀ l ∈ sub, l ∈ ls) → goodKept ls paths2 st →
      goodKept ls paths2 (sub.foldl (fun acc l =>
        if l.LicenseInfos.isEmpty then (acc.1, acc.2.1, acc.2.2 ++ [l])
        else l.LicenseInfos.foldl (keptStep l) acc) st) := by
    intro sub
    induction sub with
    | nil => intro st _ hst; exact hst
    | cons l rest ih =>
      intro st hin hst
      refine ih _ (fun x hx => hin x (List.mem_cons.2 (Or.inr hx))) ?_
      dsimp only
      by_cases hemp : ((l.LicenseInfos.isEmpty : Bool) : Prop)
      · rw [if_pos hemp]
        obtain ⟨hsub, hkept⟩ := hst
        refine ⟨hsub, ?_⟩
        intro x hx
        rcases List.mem_append.1 hx with h1 | h1
        · exact hkept x h1
        · simp only [List.mem_singleton] at h1
          subst h1
          exact Or.inl (hin _ (List.mem_cons.2 (Or.inl rfl)))
      · rw [if_neg hemp]
        exact keptFold_good ls paths2 l (hin l (List.mem_cons.2 (Or.inl rfl)))
          l.LicenseInfos st hst
  intro x hx
  exact (haux ls (paths2, [], []) (fun _ h => h)
    ⟨List.Sublist.refl paths2, fun y hy => by simp at hy⟩).2 x hx

/-- Claim C5: packages are merged into a single project entry only when
they claim a textually identical non-empty license file path and
their import paths share a non-empty slash-separated common prefix (the merged
entry is named by the longest common prefix, which is a component-wise
prefix of every member's import path); and whenever a group sharing one
license path has an empty longest common prefix, groupLicenses returns an
error instead of any grouped output. -/
theorem grouping_behavior (ls₁ ls₂ : List License) (kept : List License) (x : License)
    (hbad : ∃ kv ∈ buildPaths ls₁, 2 ≤ kv.2.length ∧ longestCommonPrefix kv.2 = "")
    (hok : groupLicenses ls₂ = Except.ok kept) (hx : x ∈ kept) :
    (∃ msg, groupLicenses ls₁ = Except.error msg) ∧
    (x ∈ ls₂ ∨
      ∃ p v, (p, v) ∈ buildPaths ls₂ ∧ p ≠ "" ∧ 2 ≤ v.length ∧
        longestCommonPrefix v ≠ "" ∧
        (∀ m ∈ v, m ∈ ls₂ ∧ ∃ li ∈ m.LicenseInfos, li.Path = p) ∧
        (∃ v0 vr, v = v0 :: vr ∧ x = { v0 with Package := longestCommonPrefix v }) ∧
        (∃ W, W ≠ [] ∧ longestCommonPrefix v = joinPath W ∧
          ∀ m ∈ v, W <+: splitSlash m.Package)) := by
  constructor
  · obtain ⟨msg, herr⟩ := groupCheck_error (buildPaths ls₁) hbad
    refine ⟨msg, ?_⟩
    unfold groupLicenses
    rw [herr]
  · unfold groupLicenses at hok
    cases hchk : groupCheck (buildPaths ls₂) with
    | error e => rw [hchk] at hok; simp at hok
    | ok paths2 =>
      rw [hchk] at hok
      simp only [Except.ok.injEq] at hok
      subst hok
      rcases groupKept_mem paths2 ls₂ x hx with h | ⟨kv, hkv, vr, hhead⟩
      · exact Or.inl h
      · obtain ⟨kvo, hkvo, hfst, hsnd⟩ := groupCheck_ok (buildPaths ls₂) paths2 hchk kv hkv
        obtain ⟨pne, hmemv⟩ := buildPaths_good ls₂ kvo hkvo
        rcases hsnd with heq | ⟨h2, hpf, v0, vr0, hv, hmerged⟩
        · left
          have hxv : x ∈ kvo.2 := by
            rw [← heq, hhead]
            exact List.mem_cons_self _ _
          exact (hmemv x hxv).1
        · right
          refine ⟨kvo.1, kvo.2, hkvo, pne, h2, hpf, hmemv, ?_, ?_⟩
          · refine ⟨v0, vr0, hv, ?_⟩
            rw [hmerged] at hhead
            injection hhead with h1 _
            exact h1.symm
          · obtain ⟨W, hW1, hW2⟩ := longestCommonPrefix_spec kvo.2
            refine ⟨W, ?_, hW1, hW2⟩
            intro hWnil
            rw [hWnil] at hW1
            exact hpf (by rw [hW1]; rfl)

theorem grouping_behavior_witness :
    (∃ msg, groupLicenses [License.mk "x/b" [LicenseInfo.mk "LICENSE" 1 none [] []] "",
      License.mk "y/c" [LicenseInfo.mk "LICENSE" 1 none [] []] ""] = Except.error msg) ∧
    (License.mk "a" [LicenseInfo.mk "a/LICENSE" 1 none [] []] "" ∈
        [License.mk "a/b" [LicenseInfo.mk "a/LICENSE" 1 none [] []] "",
         License.mk "a/c" [LicenseInfo.mk "a/LICENSE" 1 none [] []] ""] ∨
      ∃ p v, (p, v) ∈ buildPaths
          [License.mk "a/b" [LicenseInfo.mk "a/LICENSE" 1 none [] []] "",
           License.mk "a/c" [LicenseInfo.mk "a/LICENSE" 1 none [] []] ""] ∧ p ≠ "" ∧
        2 ≤ v.length ∧ longestCommonPrefix v ≠ "" ∧
        (∀ m ∈ v, m ∈ [License.mk "a/b" [LicenseInfo.mk "a/LICENSE" 1 none [] []] "",
          License.mk "a/c" [LicenseInfo.mk "a/LICENSE" 1 none [] []] ""] ∧
          ∃ li ∈ m.LicenseInfos, li.Path = p) ∧
        (∃ v0 vr, v = v0 :: vr ∧
          License.mk "a" [LicenseInfo.mk "a/LICENSE" 1 none [] []] "" =
            { v0 with Package := longestCommonPrefix v }) ∧
        (∃ W, W ≠ [] ∧ longestCommonPrefix v = joinPath W ∧
          ∀ m ∈ v, W <+: splitSlash m.Package)) :=
  grouping_behavior
    [License.mk "x/b" [LicenseInfo.mk "LICENSE" 1 none [] []] "",
     License.mk "y/c" [LicenseInfo.mk "LICENSE" 1 none [] []] ""]
    [License.mk "a/b" [LicenseInfo.mk "a/LICENSE" 1 none [] []] "",
     License.mk "a/c" [LicenseInfo.mk "a/LICENSE" 1 none [] []] ""]
    [License.mk "a" [LicenseInfo.mk "a/LICENSE" 1 none [] []] ""]
    (License.mk "a" [LicenseInfo.mk "a/LICENSE" 1 none [] []] "")
    (by decide) (by decide) (by decide)


/- ## C4: structural lemmas about the copyright matcher -/

theorem all_dropWhile_append {p : Char → Bool} {W : List Char} (h : W.all p)
    (cs : List Char) : (W ++ cs).dropWhile p = cs.dropWhile p := by
  induction W with
  | nil => rfl
  | cons w ws ih =>
    simp only [List.all_cons, Bool.and_eq_true] at h
    simp [List.dropWhile_cons, h.1, ih h.2]

theorem dropWhile_append_of_ne_nil {p : Char → Bool} {L : List Char}
    (h : L.dropWhile p ≠ []) (T : List Char) :
    (L ++ T).dropWhile p = L.dropWhile p ++ T := by
  induction L with
  | nil => simp [List.dropWhile] at h
  | cons c cs ih =>
    simp only [List.cons_append, List.dropWhile_cons] at h ⊢
    by_cases hc : p c = true
    · simp only [hc, if_true] at h ⊢
      exact ih h
    · simp [hc]

theorem stripPfx_append_some {pfx cs r : List Char} (h : stripPfx pfx cs = some r)
    (T : List Char) : stripPfx pfx (cs ++ T) = some (r ++ T) := by
  induction pfx generalizing cs with
  | nil =>
    simp only [stripPfx, Option.some.injEq] at h
    subst h
    rfl
  | cons p ps ih =>
    cases cs with
    | nil => simp [stripPfx] at h
    | cons c cs =>
      rw [List.cons_append]
      simp only [stripPfx] at h ⊢
      split at h
      · rename_i hc
        rw [if_pos hc]
        exact ih h
      · exact absurd h (by simp)

theorem stripPfx_none_cases {pfx cs : List Char} (h : stripPfx pfx cs = none) :
    (∀ T, stripPfx pfx (cs ++ T) = none) ∨ ∃ rest, pfx = cs ++ rest ∧ rest ≠ [] := by
  induction pfx generalizing cs with
  | nil => simp [stripPfx] at h
  | cons p ps ih =>
    cases cs with
    | nil => exact Or.inr ⟨p :: ps, rfl, by simp⟩
    | cons c cs =>
      simp only [stripPfx] at h
      by_cases hc : c = p
      · rw [if_pos hc] at h
        rcases ih h with h1 | ⟨rest, hr, hne⟩
        · refine Or.inl fun T => ?_
          rw [List.cons_append]
          simp only [stripPfx, if_pos hc]
          exact h1 T
        · refine Or.inr ⟨rest, ?_, hne⟩
          rw [hr, hc, List.cons_append]
      · refine Or.inl fun T => ?_
        rw [List.cons_append]
        simp only [stripPfx]
        rw [if_neg hc]

theorem dropWhile_suffix (p : Char → Bool) (cs : List Char) :
    cs.dropWhile p <:+ cs := by
  induction cs with
  | nil => simp
  | cons c cs ih =>
    by_cases hc : p c = true
    · simp only [List.dropWhile_cons, hc, if_true]
      exact ih.trans (List.suffix_cons c cs)
    · simp [List.dropWhile_cons, hc]

theorem stripPfx_suffix {pfx cs r : List Char} (h : stripPfx pfx cs = some r) :
    r <:+ cs := by
  induction pfx generalizing cs with
  | nil =>
    simp only [stripPfx, Option.some.injEq] at h
    subst h
    exact List.suffix_refl _
  | cons p ps ih =>
    cases cs with
    | nil => simp [stripPfx] at h
    | cons c cs =>
      simp only [stripPfx] at h
      split at h
      · exact (ih h).trans (List.suffix_cons c cs)
      · exact absurd h (by simp)

theorem matchYear_suffix {cs r : List Char} (h : matchYear cs = some r) : r <:+ cs := by
  unfold matchYear at h
  split at h
  · rename_i a b c d rest
    split at h
    · simp only [Option.some.injEq] at h
      subst h
      exact ⟨[a, b, c, d], rfl⟩
    · exact stripPfx_suffix h
  · exact stripPfx_suffix h

theorem afterYear_suffix {cs r : List Char} (h : afterYear cs = some r) : r <:+ cs := by
  unfold afterYear at h
  cases hy : matchYear cs with
  | none => rw [hy] at h; simp at h
  | some y =>
    rw [hy] at h
    simp only [Option.map_some', Option.some.injEq] at h
    subst h
    exact (dropWhile_suffix _ y).trans (matchYear_suffix hy)

theorem copyrightSym_suffix {cs r : List Char} (h : copyrightSym cs = some r) :
    r <:+ cs := by
  unfold copyrightSym at h
  cases h1 : stripPfx "©".data cs with
  | some y =>
    rw [h1] at h
    simp at h
    subst h
    exact stripPfx_suffix h1
  | none =>
    rw [h1] at h
    simp at h
    exact stripPfx_suffix h

theorem tryMatch_suffix {cs r : List Char} (h : tryMatch cs = some r) : r <:+ cs := by
  cases h1 : stripPfx "copyright ".data (cs.dropWhile isSpc) with
  | none =>
    simp only [tryMatch, h1] at h
    exact absurd h (by simp)
  | some r1 =>
    simp only [tryMatch, h1] at h
    have hr1 : r1 <:+ cs := (stripPfx_suffix h1).trans (dropWhile_suffix isSpc cs)
    cases h2 : copyrightSym r1 with
    | none =>
      simp only [h2] at h
      exact (afterYear_suffix h).trans ((dropWhile_suffix isSpc r1).trans hr1)
    | some r2 =>
      simp only [h2] at h
      have hr2 : r2 <:+ r1 := copyrightSym_suffix h2
      cases h3 : afterYear (r2.dropWhile isSpc) with
      | some y =>
        simp [h3] at h
        subst h
        exact (afterYear_suffix h3).trans
          (((dropWhile_suffix isSpc r2).trans hr2).trans hr1)
      | none =>
        simp [h3] at h
        exact (afterYear_suffix h).trans ((dropWhile_suffix isSpc r1).trans hr1)


theorem year_data_eq : ("[year]".data : List Char) = ['[', 'y', 'e', 'a', 'r', ']'] := rfl

theorem copyright_data_eq :
    ("copyright ".data : List Char) =
      ['c', 'o', 'p', 'y', 'r', 'i', 'g', 'h', 't', ' '] := rfl

theorem sym1_data_eq : ("©".data : List Char) = ['©'] := rfl

theorem sym2_data_eq : ("(c)".data : List Char) = ['(', 'c', ')'] := rfl

theorem stripPfx_eq_some_iff {pfx cs r : List Char} :
    stripPfx pfx cs = some r ↔ cs = pfx ++ r := by
  induction pfx generalizing cs with
  | nil => simp [stripPfx, eq_comm]
  | cons p ps ih =>
    cases cs with
    | nil => simp [stripPfx]
    | cons c cs =>
      simp only [stripPfx, List.cons_append, List.cons.injEq]
      by_cases hc : c = p
      · rw [if_pos hc]
        simp [hc, ih]
      · rw [if_neg hc]
        simp [hc]

theorem not_digit_nl {x : Char} (hx : '\n' = x) (h : isDigit x = true) : False := by
  rw [← hx] at h
  exact absurd h (by decide)

theorem stripPfx_year_head_bad {h0 : Char} (hb : h0 ≠ '[') (xs : List Char) :
    stripPfx "[year]".data (h0 :: xs) = none := by
  rw [year_data_eq]
  simp only [stripPfx]
  rw [if_neg hb]

theorem matchYear_head_bad {h0 : Char} {rest : List Char}
    (hd : isDigit h0 = false) (hb : h0 ≠ '[') : matchYear (h0 :: rest) = none := by
  rcases rest with _ | ⟨b, _ | ⟨c, _ | ⟨d, t⟩⟩⟩ <;>
    simp [matchYear, hd, stripPfx_year_head_bad hb]

theorem afterYear_head_bad {h0 : Char} {rest : List Char}
    (hd : isDigit h0 = false) (hb : h0 ≠ '[') : afterYear (h0 :: rest) = none := by
  unfold afterYear
  rw [matchYear_head_bad hd hb]
  rfl

theorem matchYear_struct {xs r : List Char} (h : matchYear xs = some r) :
    (∃ a b c d, xs = a :: b :: c :: d :: r ∧ isDigit a = true ∧ isDigit b = true ∧
      isDigit c = true ∧ isDigit d = true) ∨ xs = "[year]".data ++ r := by
  rcases xs with _ | ⟨a, _ | ⟨b, _ | ⟨c, _ | ⟨d, t⟩⟩⟩⟩
  · simp only [matchYear] at h
    exact Or.inr (stripPfx_eq_some_iff.mp h)
  · simp only [matchYear] at h
    exact Or.inr (stripPfx_eq_some_iff.mp h)
  · simp only [matchYear] at h
    exact Or.inr (stripPfx_eq_some_iff.mp h)
  · simp only [matchYear] at h
    exact Or.inr (stripPfx_eq_some_iff.mp h)
  · simp only [matchYear] at h
    by_cases hd4 : (isDigit a && isDigit b && isDigit c && isDigit d) = true
    · rw [if_pos hd4] at h
      obtain rfl : t = r := Option.some.inj h
      simp only [Bool.and_eq_true] at hd4
      exact Or.inl ⟨a, b, c, d, rfl, hd4.1.1.1, hd4.1.1.2, hd4.1.2, hd4.2⟩
    · rw [if_neg hd4] at h
      exact Or.inr (stripPfx_eq_some_iff.mp h)

theorem matchYear_append_some {cs r : List Char} (h : matchYear cs = some r)
    (T : List Char) : matchYear (cs ++ T) = some (r ++ T) := by
  rcases cs with _ | ⟨a, _ | ⟨b, _ | ⟨c, _ | ⟨d, t⟩⟩⟩⟩
  · simp only [matchYear] at h
    have hl := stripPfx_length h
    exfalso
    simp only [List.length_cons, List.length_nil] at hl
    omega
  · simp only [matchYear] at h
    have hl := stripPfx_length h
    exfalso
    simp only [List.length_cons, List.length_nil] at hl
    omega
  · simp only [matchYear] at h
    have hl := stripPfx_length h
    exfalso
    simp only [List.length_cons, List.length_nil] at hl
    omega
  · simp only [matchYear] at h
    have hl := stripPfx_length h
    exfalso
    simp only [List.length_cons, List.length_nil] at hl
    omega
  · rw [List.cons_append, List.cons_append, List.cons_append, List.cons_append]
    simp only [matchYear] at h ⊢
    by_cases hd4 : (isDigit a && isDigit b && isDigit c && isDigit d) = true
    · rw [if_pos hd4] at h ⊢
      simp only [Option.some.injEq] at h
      subst h
      rfl
    · rw [if_neg hd4] at h ⊢
      have := stripPfx_append_some h T
      simpa using this

theorem matchYear_none_append {cs : List Char} (h : matchYear cs = none)
    (hnl : '\n' ∈ cs) (T : List Char) : matchYear (cs ++ T) = none := by
  cases hm : matchYear (cs ++ T) with
  | none => rfl
  | some r =>
    exfalso
    rcases matchYear_struct hm with ⟨a, b, c, d, heq, ha, hb, hc, hd⟩ | heq
    · rcases cs with _ | ⟨x1, _ | ⟨x2, _ | ⟨x3, _ | ⟨x4, ct⟩⟩⟩⟩
      · simp at hnl
      · rw [List.cons_append, List.nil_append] at heq
        injection heq with h1 heq
        subst h1
        exact not_digit_nl (List.mem_singleton.mp hnl) ha
      · simp only [List.cons_append, List.nil_append] at heq
        injection heq with h1 heq
        injection heq with h2 heq
        subst h1
        subst h2
        rcases List.mem_cons.mp hnl with h' | h'
        · exact not_digit_nl h' ha
        · exact not_digit_nl (List.mem_singleton.mp h') hb
      · simp only [List.cons_append, List.nil_append] at heq
        injection heq with h1 heq
        injection heq with h2 heq
        injection heq with h3 heq
        subst h1
        subst h2
        subst h3
        rcases List.mem_cons.mp hnl with h' | h'
        · exact not_digit_nl h' ha
        rcases List.mem_cons.mp h' with h'' | h''
        · exact not_digit_nl h'' hb
        · exact not_digit_nl (List.mem_singleton.mp h'') hc
      · simp only [List.cons_append] at heq
        injection heq with h1 heq
        injection heq with h2 heq
        injection heq with h3 heq
        injection heq with h4 heq
        subst h1
        subst h2
        subst h3
        subst h4
        simp [matchYear, ha, hb, hc, hd] at h
    · rw [year_data_eq] at heq
      rcases cs with _ | ⟨x1, _ | ⟨x2, _ | ⟨x3, _ | ⟨x4, _ | ⟨x5, _ | ⟨x6, ct⟩⟩⟩⟩⟩⟩
      · simp at hnl
      · rw [List.cons_append, List.nil_append] at heq
        injection heq with h1 heq
        subst h1
        exact absurd hnl (by decide)
      · simp only [List.cons_append, List.nil_append] at heq
        injection heq with h1 heq
        injection heq with h2 heq
        subst h1
        subst h2
        exact absurd hnl (by decide)
      · simp only [List.cons_append, List.nil_append] at heq
        injection heq with h1 heq
        injection heq with h2 heq
        injection heq with h3 heq
        subst h1
        subst h2
        subst h3
        exact absurd hnl (by decide)
      · simp only [List.cons_append, List.nil_append] at heq
        injection heq with h1 heq
        injection heq with h2 heq
        injection heq with h3 heq
        injection heq with h4 heq
        subst h1
        subst h2
        subst h3
        subst h4
        exact absurd hnl (by decide)
      · simp only [List.cons_append, List.nil_append] at heq
        injection heq with h1 heq
        injection heq with h2 heq
        injection heq with h3 heq
        injection heq with h4 heq
        injection heq with h5 heq
        subst h1
        subst h2
        subst h3
        subst h4
        subst h5
        exact absurd hnl (by decide)
      · simp only [List.cons_append] at heq
        injection heq with h1 heq
        injection heq with h2 heq
        injection heq with h3 heq
        injection heq with h4 heq
        injection heq with h5 heq
        injection heq with h6 heq
        subst h1
        subst h2
        subst h3
        subst h4
        subst h5
        subst h6
        simp [matchYear, stripPfx, year_data_eq, isDigit] at h

theorem afterYear_none_append {cs : List Char} (h : afterYear cs = none)
    (hnl : '\n' ∈ cs) (T : List Char) : afterYear (cs ++ T) = none := by
  unfold afterYear at h ⊢
  cases hy : matchYear cs with
  | none =>
    rw [matchYear_none_append hy hnl T]
    rfl
  | some y =>
    rw [hy] at h
    simp at h

theorem afterYear_append_some {cs M : List Char} (h : afterYear cs = some M)
    (T : List Char) (hc : M ≠ [] ∨ T = [] ∨ T.head? = some '\n') :
    afterYear (cs ++ T) = some (M ++ T) := by
  unfold afterYear at h ⊢
  cases hy : matchYear cs with
  | none => rw [hy] at h; simp at h
  | some y =>
    rw [hy] at h
    simp only [Option.map_some', Option.some.injEq] at h
    rw [matchYear_append_some hy T]
    simp only [Option.map_some', Option.some.injEq]
    subst h
    by_cases hM : y.dropWhile (fun c => !(c == '\n')) = []
    · have hall : ∀ x ∈ y, (fun c => !(c == '\n')) x = true :=
        List.dropWhile_eq_nil_iff.mp hM
      have hall2 : y.all (fun c => !(c == '\n')) := List.all_eq_true.mpr hall
      rw [all_dropWhile_append hall2 T, hM, List.nil_append]
      rcases hc with h1 | h2 | h3
      · exact absurd hM h1
      · subst h2
        rfl
      · cases T with
        | nil => simp at h3
        | cons t ts =>
          simp only [List.head?_cons, Option.some.injEq] at h3
          subst h3
          rw [List.dropWhile_cons]
          simp
    · rw [dropWhile_append_of_ne_nil hM T]

theorem copyrightSym_append_some {cs r : List Char} (h : copyrightSym cs = some r)
    (T : List Char) : copyrightSym (cs ++ T) = some (r ++ T) := by
  unfold copyrightSym at h ⊢
  cases h1 : stripPfx "©".data cs with
  | some y =>
    rw [h1] at h
    simp at h
    subst h
    rw [stripPfx_append_some h1 T]
    rfl
  | none =>
    rw [h1] at h
    simp at h
    have hcs : cs = '(' :: 'c' :: ')' :: r := by
      simpa using stripPfx_eq_some_iff.mp h
    subst hcs
    simp [stripPfx, sym1_data_eq, sym2_data_eq]

theorem copyrightSym_none_append {cs : List Char} (h : copyrightSym cs = none)
    (hnl : '\n' ∈ cs) (T : List Char) : copyrightSym (cs ++ T) = none := by
  unfold copyrightSym at h ⊢
  cases h1 : stripPfx "©".data cs with
  | some y => rw [h1] at h; simp at h
  | none =>
    rw [h1] at h
    simp only [Option.none_orElse] at h
    rcases stripPfx_none_cases h1 with hs1 | ⟨rest, hr, hne'⟩
    · rw [hs1 T]
      simp only [Option.none_orElse]
      rcases stripPfx_none_cases h with hs2 | ⟨rest2, hr2, hne2⟩
      · exact hs2 T
      · exfalso
        have h3 : '\n' ∈ (['(', 'c', ')'] : List Char) := by
          rw [hr2]
          exact List.mem_append_left _ hnl
        exact absurd h3 (by decide)
    · exfalso
      have : '\n' ∈ ("©".data : List Char) := by
        rw [hr]
        exact List.mem_append_left _ hnl
      exact absurd this (by decide)

theorem sym_head {r r2 : List Char} (h : copyrightSym r = some r2) :
    ∃ h0 t, r = h0 :: t ∧ isSpc h0 = false ∧ isDigit h0 = false ∧ h0 ≠ '[' := by
  unfold copyrightSym at h
  cases h1 : stripPfx "©".data r with
  | some y =>
    have hr := stripPfx_eq_some_iff.mp h1
    rw [sym1_data_eq] at hr
    exact ⟨'©', y, by simpa using hr, by decide, by decide, by decide⟩
  | none =>
    rw [h1] at h
    simp only [Option.none_orElse] at h
    have hr := stripPfx_eq_some_iff.mp h
    exact ⟨'(', 'c' :: ')' :: r2, by simpa using hr, by decide, by decide, by decide⟩

theorem getLast?_append_right {l₁ l₂ : List Char} (h : l₂ ≠ []) :
    (l₁ ++ l₂).getLast? = l₂.getLast? := by
  induction l₁ with
  | nil => rfl
  | cons a l ih =>
    rw [List.cons_append]
    have hne : l ++ l₂ ≠ [] := by
      intro hl
      exact absurd (List.append_eq_nil.mp hl).2 h
    cases hl : l ++ l₂ with
    | nil => exact absurd hl hne
    | cons b t =>
      rw [List.getLast?_cons_cons, ← hl, ih]

theorem mem_of_getLast?_eq {l : List Char} {a : Char} (h : l.getLast? = some a) :
    a ∈ l := by
  induction l with
  | nil => simp at h
  | cons b l ih =>
    cases l with
    | nil =>
      simp only [List.getLast?_singleton, Option.some.injEq] at h
      subst h
      exact List.mem_singleton_self _
    | cons c t =>
      rw [List.getLast?_cons_cons] at h
      exact List.mem_cons_of_mem b (ih h)

theorem dropWhile_ne_nil_of_mem {p : Char → Bool} {l : List Char} {a : Char}
    (ha : a ∈ l) (hp : p a = false) : l.dropWhile p ≠ [] := by
  induction l with
  | nil => simp at ha
  | cons b l ih =>
    by_cases hb : p b = true
    · simp only [List.dropWhile_cons, hb, if_true]
      rcases List.mem_cons.mp ha with rfl | ha2
      · simp [hb] at hp
      · exact ih ha2
    · rw [List.dropWhile_cons, if_neg hb]
      simp


theorem getLast?_of_suffix {r P : List Char} (h : r <:+ P) (hne : r ≠ []) :
    r.getLast? = P.getLast? := by
  obtain ⟨w, rfl⟩ := h
  exact (getLast?_append_right hne).symm

theorem tryMatch_allspace {W : List Char} (h : W.all isSpc) (cs : List Char) :
    tryMatch (W ++ cs) = tryMatch cs := by
  unfold tryMatch
  rw [all_dropWhile_append h cs]

theorem afterYear_some_ne_nil {x M : List Char} (h : afterYear x = some M)
    (hlast : x.getLast? = some '\n') : M ≠ [] := by
  unfold afterYear at h
  cases hy : matchYear x with
  | none => rw [hy] at h; simp at h
  | some y =>
    rw [hy] at h
    simp only [Option.map_some', Option.some.injEq] at h
    subst h
    cases hyn : y with
    | nil =>
      exfalso
      subst hyn
      rcases matchYear_struct hy with ⟨a, b, c, d, heq, ha, hb, hc, hd⟩ | heq
      · rw [heq] at hlast
        simp only [List.getLast?_cons_cons, List.getLast?_singleton,
          Option.some.injEq] at hlast
        exact not_digit_nl hlast.symm hd
      · rw [heq] at hlast
        simp only [year_data_eq, List.append_nil] at hlast
        exact absurd hlast (by decide)
    | cons c cs =>
      rw [← hyn]
      have hysuff : y <:+ x := matchYear_suffix hy
      have hyne : y ≠ [] := by rw [hyn]; simp
      have hylast : y.getLast? = some '\n' := by
        rw [getLast?_of_suffix hysuff hyne]
        exact hlast
      have hmem : '\n' ∈ y := mem_of_getLast?_eq hylast
      exact dropWhile_ne_nil_of_mem hmem (by decide)

theorem tryMatch_some_ne_nil {P M : List Char} (h : tryMatch P = some M)
    (hlast : P.getLast? = some '\n') : M ≠ [] := by
  cases h1 : stripPfx "copyright ".data (P.dropWhile isSpc) with
  | none =>
    simp only [tryMatch, h1] at h
    exact absurd h (by simp)
  | some r1 =>
    simp only [tryMatch, h1] at h
    cases h2 : copyrightSym r1 with
    | none =>
      simp only [h2] at h
      have hsuf : r1.dropWhile isSpc <:+ P :=
        (dropWhile_suffix isSpc r1).trans
          ((stripPfx_suffix h1).trans (dropWhile_suffix isSpc P))
      have hne : r1.dropWhile isSpc ≠ [] := by
        intro hnil
        rw [hnil] at h
        simp [afterYear, matchYear, stripPfx, year_data_eq] at h
      refine afterYear_some_ne_nil h ?_
      rw [getLast?_of_suffix hsuf hne]
      exact hlast
    | some r2 =>
      simp only [h2] at h
      cases h3 : afterYear (r2.dropWhile isSpc) with
      | some y =>
        simp [h3] at h
        subst h
        have hsuf : r2.dropWhile isSpc <:+ P :=
          ((dropWhile_suffix isSpc r2).trans (copyrightSym_suffix h2)).trans
            ((stripPfx_suffix h1).trans (dropWhile_suffix isSpc P))
        have hne : r2.dropWhile isSpc ≠ [] := by
          intro hnil
          rw [hnil] at h3
          simp [afterYear, matchYear, stripPfx, year_data_eq] at h3
        refine afterYear_some_ne_nil h3 ?_
        rw [getLast?_of_suffix hsuf hne]
        exact hlast
      | none =>
        simp [h3] at h
        have hsuf : r1.dropWhile isSpc <:+ P :=
          (dropWhile_suffix isSpc r1).trans
            ((stripPfx_suffix h1).trans (dropWhile_suffix isSpc P))
        have hne : r1.dropWhile isSpc ≠ [] := by
          intro hnil
          rw [hnil] at h
          simp [afterYear, matchYear, stripPfx, year_data_eq] at h
        refine afterYear_some_ne_nil h ?_
        rw [getLast?_of_suffix hsuf hne]
        exact hlast

theorem replaceGo_irrel : ∀ (n : Nat) (cs : List Char) (f g : Nat),
    cs.length ≤ n → cs.length ≤ f → cs.length ≤ g → replaceGo f cs = replaceGo g cs := by
  intro n
  induction n with
  | zero =>
    intro cs f g hn _ _
    have hcs : cs = [] := List.length_eq_zero.mp (Nat.le_zero.mp hn)
    subst hcs
    cases f <;> cases g <;> rfl
  | succ n ih =>
    intro cs f g hn hf hg
    cases cs with
    | nil => cases f <;> cases g <;> rfl
    | cons c rest =>
      simp only [List.length_cons] at hn hf hg
      cases f with
      | zero => omega
      | succ f' =>
        cases g with
        | zero => omega
        | succ g' =>
          cases hm : tryMatch (c :: rest) with
          | some r =>
            simp only [replaceGo, hm]
            have hlen := tryMatch_length hm
            simp only [List.length_cons] at hlen
            exact ih r f' g' (by omega) (by omega) (by omega)
          | none =>
            simp only [replaceGo, hm]
            rw [ih rest f' g' (by omega) (by omega) (by omega)]

theorem replaceCopyright_matched {cs r : List Char} (h : tryMatch cs = some r) :
    replaceCopyright cs = replaceCopyright r := by
  have hlen := tryMatch_length h
  cases cs with
  | nil => simp at hlen
  | cons c rest =>
    unfold replaceCopyright
    simp only [List.length_cons, replaceGo, h]
    simp only [List.length_cons] at hlen
    exact replaceGo_irrel r.length r rest.length r.length (le_refl _) (by omega) (le_refl _)

theorem replaceCopyright_nomatch {c : Char} {rest : List Char}
    (h : tryMatch (c :: rest) = none) :
    replaceCopyright (c :: rest) = c :: replaceCopyright rest := by
  unfold replaceCopyright
  simp only [List.length_cons, replaceGo, h]

theorem copyrightSym_none_stable {r1 : List Char} (hsym : copyrightSym r1 = none)
    (hne : r1 ≠ []) (hay : afterYear (r1.dropWhile isSpc) ≠ none) (T : List Char) :
    copyrightSym (r1 ++ T) = none := by
  unfold copyrightSym at hsym ⊢
  cases hs1 : stripPfx "©".data r1 with
  | some y => rw [hs1] at hsym; simp at hsym
  | none =>
    rw [hs1] at hsym
    simp only [Option.none_orElse] at hsym
    cases r1 with
    | nil => exact absurd rfl hne
    | cons x xs =>
      have hx : x ≠ '©' := by
        intro hx
        subst hx
        rw [sym1_data_eq] at hs1
        simp [stripPfx] at hs1
      have hs1' : stripPfx "©".data ((x :: xs) ++ T) = none := by
        rw [sym1_data_eq, List.cons_append]
        simp only [stripPfx]
        rw [if_neg hx]
      rw [hs1']
      simp only [Option.none_orElse]
      rcases stripPfx_none_cases hsym with hst | ⟨rest, hr, hrne⟩
      · exact hst T
      · exfalso
        rcases xs with _ | ⟨x2, _ | ⟨x3, xs3⟩⟩
        · simp only [List.cons_append, List.nil_append] at hr
          injection hr with hx1 hr
          apply hay
          rw [← hx1]
          have hdw : (('(' :: []) : List Char).dropWhile isSpc = ['('] := rfl
          rw [hdw]
          exact afterYear_head_bad (by decide) (by decide)
        · simp only [List.cons_append, List.nil_append] at hr
          injection hr with hx1 hr
          injection hr with hx2 hr
          apply hay
          rw [← hx1, ← hx2]
          have hdw : (('(' :: 'c' :: []) : List Char).dropWhile isSpc = ['(', 'c'] := rfl
          rw [hdw]
          exact afterYear_head_bad (by decide) (by decide)
        · simp only [List.cons_append] at hr
          injection hr with hx1 hr
          injection hr with hx2 hr
          injection hr with hx3 hr
          exact absurd (List.append_eq_nil.mp hr.symm).2 hrne

theorem tryMatch_extend {L M : List Char} (h : tryMatch L = some M) (T : List Char)
    (hc : M ≠ [] ∨ T = [] ∨ T.head? = some '\n') :
    tryMatch (L ++ T) = some (M ++ T) := by
  cases h1 : stripPfx "copyright ".data (L.dropWhile isSpc) with
  | none =>
    simp only [tryMatch, h1] at h
    exact absurd h (by simp)
  | some r1 =>
    simp only [tryMatch, h1] at h
    have hdne : L.dropWhile isSpc ≠ [] := by
      intro hnil
      rw [hnil] at h1
      simp [stripPfx, copyright_data_eq] at h1
    have h1' : stripPfx "copyright ".data ((L ++ T).dropWhile isSpc) = some (r1 ++ T) := by
      rw [dropWhile_append_of_ne_nil hdne T]
      exact stripPfx_append_some h1 T
    cases h2 : copyrightSym r1 with
    | none =>
      simp only [h2] at h
      have hr1d : r1.dropWhile isSpc ≠ [] := by
        intro hnil
        rw [hnil] at h
        simp [afterYear, matchYear, stripPfx, year_data_eq] at h
      have hr1ne : r1 ≠ [] := by
        intro hnil
        rw [hnil] at hr1d
        exact hr1d rfl
      have h2' : copyrightSym (r1 ++ T) = none :=
        copyrightSym_none_stable h2 hr1ne (by rw [h]; simp) T
      simp only [tryMatch, h1', h2']
      rw [dropWhile_append_of_ne_nil hr1d T]
      exact afterYear_append_some h T hc
    | some r2 =>
      simp only [h2] at h
      have h2' : copyrightSym (r1 ++ T) = some (r2 ++ T) := copyrightSym_append_some h2 T
      obtain ⟨h0, t0, hr1eq, hsp, hdg, hbr⟩ := sym_head h2
      have hfb : afterYear (r1.dropWhile isSpc) = none := by
        rw [hr1eq, List.dropWhile_cons, if_neg (by simp [hsp])]
        exact afterYear_head_bad hdg hbr
      rw [hfb] at h
      cases h3 : afterYear (r2.dropWhile isSpc) with
      | none => rw [h3] at h; simp at h
      | some y =>
        rw [h3] at h
        simp at h
        subst h
        simp only [tryMatch, h1', h2']
        have hr2d : r2.dropWhile isSpc ≠ [] := by
          intro hnil
          rw [hnil] at h3
          simp [afterYear, matchYear, stripPfx, year_data_eq] at h3
        rw [dropWhile_append_of_ne_nil hr2d T]
        rw [afterYear_append_some h3 T hc]
        rfl


theorem tryMatch_confine_none {P E : List Char} (h : tryMatch P = none)
    (hlast : P.getLast? = some '\n') (hnall : ¬ P.all isSpc = true)
    (hE : (E.dropWhile isSpc).head? = some 'c') :
    tryMatch (P ++ E) = none := by
  obtain ⟨Etl, hEeq⟩ : ∃ tl, E.dropWhile isSpc = 'c' :: tl := by
    cases hEd : E.dropWhile isSpc with
    | nil => rw [hEd] at hE; simp at hE
    | cons e tl =>
      rw [hEd] at hE
      simp only [List.head?_cons, Option.some.injEq] at hE
      exact ⟨tl, by rw [hE]⟩
  have hd : P.dropWhile isSpc ≠ [] := by
    intro hnil
    exact hnall (List.all_eq_true.mpr (List.dropWhile_eq_nil_iff.mp hnil))
  have hdlast : (P.dropWhile isSpc).getLast? = some '\n' := by
    rw [getLast?_of_suffix (dropWhile_suffix isSpc P) hd]
    exact hlast
  have hdnl : '\n' ∈ P.dropWhile isSpc := mem_of_getLast?_eq hdlast
  have hdrop : (P ++ E).dropWhile isSpc = P.dropWhile isSpc ++ E :=
    dropWhile_append_of_ne_nil hd E
  cases h1 : stripPfx "copyright ".data (P.dropWhile isSpc) with
  | none =>
    rcases stripPfx_none_cases h1 with hst | ⟨rest, hr, hrne⟩
    · simp only [tryMatch, hdrop, hst E]
    · exfalso
      have hmem : '\n' ∈ ("copyright ".data : List Char) := by
        rw [hr]
        exact List.mem_append_left _ hdnl
      rw [copyright_data_eq] at hmem
      exact absurd hmem (by decide)
  | some r1 =>
    simp only [tryMatch, h1] at h
    have h1' : stripPfx "copyright ".data ((P ++ E).dropWhile isSpc) = some (r1 ++ E) := by
      rw [hdrop]
      exact stripPfx_append_some h1 E
    have hr1ne : r1 ≠ [] := by
      intro hnil
      subst hnil
      have heq := stripPfx_eq_some_iff.mp h1
      rw [List.append_nil] at heq
      rw [heq, copyright_data_eq] at hdlast
      exact absurd hdlast (by decide)
    have hr1last : r1.getLast? = some '\n' := by
      rw [getLast?_of_suffix (stripPfx_suffix h1) hr1ne]
      exact hdlast
    have hr1nl : '\n' ∈ r1 := mem_of_getLast?_eq hr1last
    cases h2 : copyrightSym r1 with
    | none =>
      simp only [h2] at h
      have h2' : copyrightSym (r1 ++ E) = none := copyrightSym_none_append h2 hr1nl E
      simp only [tryMatch, h1', h2']
      by_cases hd3 : r1.dropWhile isSpc = []
      · have hall : r1.all isSpc := List.all_eq_true.mpr (List.dropWhile_eq_nil_iff.mp hd3)
        rw [all_dropWhile_append hall E, hEeq]
        exact afterYear_head_bad (by decide) (by decide)
      · rw [dropWhile_append_of_ne_nil hd3 E]
        have hnl3 : '\n' ∈ r1.dropWhile isSpc := by
          apply mem_of_getLast?_eq
          rw [getLast?_of_suffix (dropWhile_suffix isSpc r1) hd3]
          exact hr1last
        exact afterYear_none_append h hnl3 E
    | some r2 =>
      simp only [h2] at h
      have h2' : copyrightSym (r1 ++ E) = some (r2 ++ E) := copyrightSym_append_some h2 E
      simp only [tryMatch, h1', h2']
      cases h3 : afterYear (r2.dropWhile isSpc) with
      | some y => rw [h3] at h; simp at h
      | none =>
        rw [h3] at h
        simp only [Option.none_orElse] at h
        have hmain : afterYear ((r2 ++ E).dropWhile isSpc) = none := by
          by_cases hd2 : r2.dropWhile isSpc = []
          · have hall : r2.all isSpc := List.all_eq_true.mpr (List.dropWhile_eq_nil_iff.mp hd2)
            rw [all_dropWhile_append hall E, hEeq]
            exact afterYear_head_bad (by decide) (by decide)
          · rw [dropWhile_append_of_ne_nil hd2 E]
            have hr2ne : r2 ≠ [] := by
              intro hnil
              rw [hnil] at hd2
              exact hd2 rfl
            have hnl2 : '\n' ∈ r2.dropWhile isSpc := by
              apply mem_of_getLast?_eq
              rw [getLast?_of_suffix (dropWhile_suffix isSpc r2) hd2]
              rw [getLast?_of_suffix (copyrightSym_suffix h2) hr2ne]
              exact hr1last
            exact afterYear_none_append h3 hnl2 E
        have hfb : afterYear ((r1 ++ E).dropWhile isSpc) = none := by
          obtain ⟨h0, t0, hr1eq, hsp, hdg, hbr⟩ := sym_head h2
          rw [hr1eq, List.cons_append, List.dropWhile_cons, if_neg (by simp [hsp])]
          exact afterYear_head_bad hdg hbr
        rw [hmain, hfb]
        rfl

theorem tryMatch_some_drop_head {C M : List Char} (h : tryMatch C = some M)
    (S : List Char) : ((C ++ S).dropWhile isSpc).head? = some 'c' := by
  cases h1 : stripPfx "copyright ".data (C.dropWhile isSpc) with
  | none =>
    simp only [tryMatch, h1] at h
    exact absurd h (by simp)
  | some r1 =>
    have heq := stripPfx_eq_some_iff.mp h1
    have hdne : C.dropWhile isSpc ≠ [] := by
      rw [heq, copyright_data_eq]
      simp
    rw [dropWhile_append_of_ne_nil hdne S, heq, copyright_data_eq]
    rfl

theorem replaceCopyright_boundary {W C S : List Char} (hW : W.all isSpc)
    (hC : tryMatch C = some []) (hS : S = [] ∨ S.head? = some '\n') :
    replaceCopyright (W ++ C ++ S) = replaceCopyright S := by
  have hCS : tryMatch (C ++ S) = some S := by
    have h := tryMatch_extend hC S (Or.inr hS)
    simpa using h
  have hall : tryMatch (W ++ (C ++ S)) = some S := by
    rw [tryMatch_allspace hW (C ++ S)]
    exact hCS
  have hres : replaceCopyright (W ++ (C ++ S)) = replaceCopyright S :=
    replaceCopyright_matched hall
  rw [List.append_assoc]
  exact hres

theorem replaceCopyright_subst (N : Nat) : ∀ (P C₁ C₂ S : List Char),
    P.length ≤ N →
    (P = [] ∨ P.getLast? = some '\n') →
    tryMatch C₁ = some [] → tryMatch C₂ = some [] →
    (S = [] ∨ S.head? = some '\n') →
    replaceCopyright (P ++ C₁ ++ S) = replaceCopyright (P ++ C₂ ++ S) := by
  induction N with
  | zero =>
    intro P C₁ C₂ S hlen hP h1 h2 hS
    have hnil : P = [] := List.length_eq_zero.mp (Nat.le_zero.mp hlen)
    subst hnil
    simp only [List.nil_append]
    have hCS1 : tryMatch (C₁ ++ S) = some S := by
      simpa using tryMatch_extend h1 S (Or.inr hS)
    have hCS2 : tryMatch (C₂ ++ S) = some S := by
      simpa using tryMatch_extend h2 S (Or.inr hS)
    rw [replaceCopyright_matched hCS1, replaceCopyright_matched hCS2]
  | succ N ih =>
    intro P C₁ C₂ S hlen hP h1 h2 hS
    rcases hP with rfl | hPlast
    · simp only [List.nil_append]
      have hCS1 : tryMatch (C₁ ++ S) = some S := by
        simpa using tryMatch_extend h1 S (Or.inr hS)
      have hCS2 : tryMatch (C₂ ++ S) = some S := by
        simpa using tryMatch_extend h2 S (Or.inr hS)
      rw [replaceCopyright_matched hCS1, replaceCopyright_matched hCS2]
    · by_cases hall : P.all isSpc = true
      · rw [replaceCopyright_boundary hall h1 hS, replaceCopyright_boundary hall h2 hS]
      · cases hm : tryMatch P with
        | none =>
          have hn1 : tryMatch (P ++ (C₁ ++ S)) = none :=
            tryMatch_confine_none hm hPlast hall (tryMatch_some_drop_head h1 S)
          have hn2 : tryMatch (P ++ (C₂ ++ S)) = none :=
            tryMatch_confine_none hm hPlast hall (tryMatch_some_drop_head h2 S)
          cases P with
          | nil => simp at hPlast
          | cons p Pt =>
            have s1 : replaceCopyright (p :: Pt ++ C₁ ++ S) =
                p :: replaceCopyright (Pt ++ C₁ ++ S) := by
              have hstep := replaceCopyright_nomatch
                (show tryMatch (p :: (Pt ++ (C₁ ++ S))) = none by
                  simpa [List.append_assoc] using hn1)
              simpa [List.append_assoc] using hstep
            have s2 : replaceCopyright (p :: Pt ++ C₂ ++ S) =
                p :: replaceCopyright (Pt ++ C₂ ++ S) := by
              have hstep := replaceCopyright_nomatch
                (show tryMatch (p :: (Pt ++ (C₂ ++ S))) = none by
                  simpa [List.append_assoc] using hn2)
              simpa [List.append_assoc] using hstep
            rw [s1, s2]
            have hPt : Pt = [] ∨ Pt.getLast? = some '\n' := by
              cases Pt with
              | nil => exact Or.inl rfl
              | cons q Qt =>
                right
                rw [← List.getLast?_cons_cons]
                exact hPlast
            simp only [List.length_cons] at hlen
            rw [ih Pt C₁ C₂ S (by omega) hPt h1 h2 hS]
        | some M =>
          have hMne : M ≠ [] := tryMatch_some_ne_nil hm hPlast
          have hMsuf : M <:+ P := tryMatch_suffix hm
          have hMlast : M.getLast? = some '\n' := by
            rw [getLast?_of_suffix hMsuf hMne]
            exact hPlast
          have hMlen : M.length + 10 ≤ P.length := tryMatch_length hm
          have he1 : tryMatch (P ++ (C₁ ++ S)) = some (M ++ (C₁ ++ S)) :=
            tryMatch_extend hm (C₁ ++ S) (Or.inl hMne)
          have he2 : tryMatch (P ++ (C₂ ++ S)) = some (M ++ (C₂ ++ S)) :=
            tryMatch_extend hm (C₂ ++ S) (Or.inl hMne)
          have r1 : replaceCopyright (P ++ C₁ ++ S) = replaceCopyright (M ++ C₁ ++ S) := by
            have hr := replaceCopyright_matched he1
            rw [List.append_assoc, hr, List.append_assoc]
          have r2 : replaceCopyright (P ++ C₂ ++ S) = replaceCopyright (M ++ C₂ ++ S) := by
            have hr := replaceCopyright_matched he2
            rw [List.append_assoc, hr, List.append_assoc]
          rw [r1, r2]
          exact ih M C₁ C₂ S (by omega) (Or.inr hMlast) h1 h2 hS


/-- Claim C4, counterexample to the claim as stated: the spec and claim
describe the marker after the word Copyright as a
symbol-or-`(c)`-or-4-digit-year-or-literal-`[year]` disjunction ("with or
without a year"), but `reCopyright` makes the sign optional and the year
mandatory.  A notice line with a sign and a holder but no year
(`copyright © alice`) is not stripped, and two texts differing only in
the holder of such a line normalize to different word sets. -/
theorem copyright_yearless_not_stripped :
    cleanLicenseData "x\ncopyright © alice\ny".data =
        "x\ncopyright © alice\ny".data ∧
    makeWordSet "x\ncopyright © alice\ny".data ≠
        makeWordSet "x\ncopyright © bob\ny".data := by
  decide

/-- Claim C4 (amended): normalization strips every copyright-notice line in
which, case-insensitively, the word `Copyright ` is followed by an optional
sign (`©` or `(c)`) and a mandatory 4-digit-year-or-literal-`[year]` marker,
removing the remainder of that line; consequently two texts that differ
only in such a fully matching notice line (different holders and/or
years) normalize to the same cleaned text and hence to identical word
sets, leaving the similarity score unaffected.  The line boundaries are
expressed through `lowerStr`/`tryMatch`: the notice line matches to its
end, ends before the trailing newline of the suffix, and starts after the
leading newline of the prefix. -/
theorem copyright_line_normalization (pre c₁ c₂ suf : List Char)
    (hpre : lowerStr pre = [] ∨ (lowerStr pre).getLast? = some '\n')
    (h1 : tryMatch (lowerStr c₁) = some [])
    (h2 : tryMatch (lowerStr c₂) = some [])
    (hsuf : lowerStr suf = [] ∨ (lowerStr suf).head? = some '\n') :
    cleanLicenseData (pre ++ c₁ ++ suf) = cleanLicenseData (pre ++ c₂ ++ suf) ∧
    makeWordSet (pre ++ c₁ ++ suf) = makeWordSet (pre ++ c₂ ++ suf) := by
  have hmain := replaceCopyright_subst (lowerStr pre).length (lowerStr pre)
      (lowerStr c₁) (lowerStr c₂) (lowerStr suf) (le_refl _) hpre h1 h2 hsuf
  have hclean : cleanLicenseData (pre ++ c₁ ++ suf) = cleanLicenseData (pre ++ c₂ ++ suf) := by
    unfold cleanLicenseData
    unfold lowerStr at hmain ⊢
    simpa [List.map_append] using hmain
  refine ⟨hclean, ?_⟩
  unfold makeWordSet
  rw [hclean]

/-- Witness for C4: two texts differing only in a fully matching copyright
line, one with the `(c)` sign and one without, clean and tokenize to the
same word set. -/
theorem copyright_line_normalization_witness :
    cleanLicenseData ("x\n".data ++ "Copyright (c) 2013 Alice".data ++ "\ny".data) =
        cleanLicenseData ("x\n".data ++ "Copyright 2024 Bob Inc".data ++ "\ny".data) ∧
    makeWordSet ("x\n".data ++ "Copyright (c) 2013 Alice".data ++ "\ny".data) =
        makeWordSet ("x\n".data ++ "Copyright 2024 Bob Inc".data ++ "\ny".data) :=
  copyright_line_normalization _ _ _ _ (by decide) (by decide) (by decide) (by decide)


end LBOM
